import Mathlib

/-!
# ip-trie: a shallow embedding of `trie.c`

The integer-keyed binary trie of `src/trie.c` (`ibt_create`, `ibt_insert`,
`ibt_search`, `show_tree` and the three counter reads) is translated into
pure Lean functions, and the properties stated for it are proved or refuted
on that translation.

Conventions of the embedding:

* a `Node` of the C code is a pointer to a `struct Node_s`; the null pointer is
  the constructor `Node.null`, a pointer to a struct is `Node.mk left data right height`;
* the `data` field is a pointer to an entry, `none` standing for `NULL`;
* `ikey_t` is an unsigned 32-bit integer, embedded as a `Nat`; theorems about
  keys assume `k < 2 ^ 32`; a `Value` is an opaque pointer, embedded as a `Nat`;
* the counters (`size`, `node_count`, both `height` fields) are embedded as
  `Nat`: none of them can wrap, the heights are at most 33 and the two
  `size_t` counters are bounded by the number of calls made;
* `malloc` is assumed to succeed (the failure branches call `exit`).
-/

namespace IpTrie

/-- The number of bits of a key, `BITSPERWORD`. -/
def BITSPERWORD : Nat := 32

/-- Modelled from the spec: `struct Entry_s`, `ikey_t` and `Value` are declared
in `trie.h`, which is not among the sources. `trie.c` uses the fields `key`
and `v` of an entry; the spec gives the key as an unsigned 32-bit integer and
the value as an opaque payload supplied by the caller. -/
structure Entry where
  key : Nat
  v : Nat
  deriving DecidableEq, Repr

/-- A node pointer, `Node`: null, or a struct with a left child, an optional
entry, a right child and a height. -/
inductive Node where
  | null : Node
  | mk (left : Node) (data : Option Entry) (right : Node) (height : Nat) : Node
  deriving DecidableEq, Repr

/-- The trie, `struct Trie_s`, without its two callbacks. -/
structure Trie where
  root : Node
  height : Nat
  size : Nat
  node_count : Nat
  deriving DecidableEq, Repr

/-- Translation of `create_entry`. -/
def create_entry (ip : Nat) (v : Nat) : Entry :=
  { key := ip, v := v }

/-- Translation of `ibt_create`: no root, all counters zero. -/
def ibt_create : Trie :=
  { root := Node.null, height := 0, size := 0, node_count := 0 }

/-- Bit `i` of a key, the C expression `(k >> i) & 1`. -/
def bitAt (k : Nat) (i : Nat) : Nat :=
  (k >>> i) &&& 1

/-- How a call of `ibt_insert` leaves its `for` loop. -/
inductive InsertExit where
  /-- The `return` after `(trie->size)--`: the key was found in a node. -/
  | duplicate : InsertExit
  /-- The `return` after a new leaf of the given height was linked in. -/
  | created (height : Nat) : InsertExit
  /-- The loop ran out of iterations and the function fell off its end. -/
  | fellThrough : InsertExit
  /-- The current node was null when the loop body read it. -/
  | nullDeref : InsertExit
  deriving DecidableEq, Repr

/-- What the loop of `ibt_insert` did: the subtree that replaces the one it
started from, how many times it incremented `node_count`, and its exit. -/
structure LoopResult where
  node : Node
  splits : Nat
  exit : InsertExit
  deriving DecidableEq, Repr

/-- A fresh node without children, as built after each `malloc` in `ibt_insert`. -/
def new_leaf (e : Entry) (height : Nat) : Node :=
  Node.mk Node.null (some e) Node.null height

/-- The test `current_node->data != NULL && current_node->data->key == ip`. -/
def holds_key (d : Option Entry) (ip : Nat) : Bool :=
  match d with
  | some e => e.key == ip
  | none => false

/-- The children of the current node and the increment of `node_count` after
the first `if` of the loop body of `ibt_insert`, for an entry that is not a
duplicate: an entry held by the node is moved into a fresh child, the right
one when bit `i` of the entry's own key is 1 and the left one otherwise; that
child slot is overwritten and the other one is left alone. -/
structure Split where
  left : Node
  right : Node
  splits : Nat
  deriving DecidableEq, Repr

/-- The first `if` of the loop body of `ibt_insert` (past the duplicate test). -/
def push_down (i : Nat) (l : Node) (d : Option Entry) (r : Node) (h : Nat) : Split :=
  match d with
  | none => { left := l, right := r, splits := 0 }
  | some e =>
      if bitAt e.key i = 1 then
        { left := l, right := new_leaf e (h + 1), splits := 1 }
      else
        { left := new_leaf e (h + 1), right := r, splits := 1 }

/-- The loop of `ibt_insert`, `for (i = BITSPERWORD-1; i >= 0; i--)`, started
at `current_node` with `n` iterations left (so `i = n - 1`).

An iteration first splits a node that holds an entry (unless that entry has
the key `ip`, which ends the call), then follows bit `i` of `ip`: an absent
child is created as the new leaf and the call ends, a present one becomes the
current node. The result carries the rebuilt subtree. -/
def ibt_insert_loop : Nat → Node → Nat → Nat → LoopResult
  | 0, cur, _, _ => { node := cur, splits := 0, exit := InsertExit.fellThrough }
  | _ + 1, Node.null, _, _ =>
      { node := Node.null, splits := 0, exit := InsertExit.nullDeref }
  | i + 1, Node.mk l d r h, ip, v =>
      if holds_key d ip then
        { node := Node.mk l d r h, splits := 0, exit := InsertExit.duplicate }
      else
        let s := push_down i l d r h
        if bitAt ip i = 1 then
          match s.right with
          | Node.null =>
              { node := Node.mk s.left none (new_leaf (create_entry ip v) (h + 1)) h,
                splits := s.splits, exit := InsertExit.created (h + 1) }
          | Node.mk rl rd rr rh =>
              let res := ibt_insert_loop i (Node.mk rl rd rr rh) ip v
              { node := Node.mk s.left none res.node h,
                splits := s.splits + res.splits, exit := res.exit }
        else
          match s.left with
          | Node.null =>
              { node := Node.mk (new_leaf (create_entry ip v) (h + 1)) none s.right h,
                splits := s.splits, exit := InsertExit.created (h + 1) }
          | Node.mk ll ld lr lh =>
              let res := ibt_insert_loop i (Node.mk ll ld lr lh) ip v
              { node := Node.mk res.node none s.right h,
                splits := s.splits + res.splits, exit := res.exit }

/-- The loop of `ibt_insert` as run from the root: 32 iterations. -/
def insert_walk (root : Node) (ip : Nat) (v : Nat) : LoopResult :=
  ibt_insert_loop BITSPERWORD root ip v

/-- Translation of `ibt_insert`. `size` is incremented first; an empty trie
gets a root leaf of height 1; otherwise the loop runs from the root, and its
exit decides the counters: a duplicate takes the increment of `size` back, a
new leaf raises `height` when it is deeper, and a loop that runs out returns
with `size` still incremented. -/
def ibt_insert (trie : Trie) (ip : Nat) (v : Nat) : Trie :=
  match trie.root with
  | Node.null =>
      { root := new_leaf (create_entry ip v) 1, height := 1,
        size := trie.size + 1, node_count := trie.node_count }
  | Node.mk l d r h =>
      let res := insert_walk (Node.mk l d r h) ip v
      match res.exit with
      | InsertExit.duplicate =>
          { root := res.node, height := trie.height,
            size := trie.size + 1 - 1, node_count := trie.node_count + res.splits }
      | InsertExit.created nh =>
          { root := res.node, height := if nh > trie.height then nh else trie.height,
            size := trie.size + 1, node_count := trie.node_count + res.splits }
      | _ =>
          { root := res.node, height := trie.height,
            size := trie.size + 1, node_count := trie.node_count + res.splits }

/-- The exit taken by the call `ibt_insert trie ip v`; `none` when the trie is
empty and the call returns before its loop. -/
def ibt_insert_exit (trie : Trie) (ip : Nat) (v : Nat) : Option InsertExit :=
  match trie.root with
  | Node.null => none
  | Node.mk l d r h => some (insert_walk (Node.mk l d r h) ip v).exit

/-- The outcome of `ibt_search`. -/
inductive SearchResult where
  /-- The entry of the node the walk stopped at. -/
  | found (e : Entry) : SearchResult
  /-- The final `return NULL`. -/
  | notFound : SearchResult
  /-- The walk read a field of a null `current_node`. -/
  | nullDeref : SearchResult
  deriving DecidableEq, Repr

/-- The loop of `ibt_search` with `n` iterations left (so `i = n - 1`),
followed by the test after the loop. `fl` and `fr` are `find_leftmost` and
`find_rightmost`. Every iteration, and the test after the loop, reads
`current_node->data` first, which is a null dereference when the previous
step moved to an absent child. -/
def ibt_search_loop : Nat → Node → Nat → Bool → Bool → SearchResult
  | _, Node.null, _, _, _ => SearchResult.nullDeref
  | _, Node.mk _ (some e) _ _, _, _, _ => SearchResult.found e
  | 0, Node.mk _ none _ _, _, _, _ => SearchResult.notFound
  | i + 1, Node.mk l none r _, key, fl, fr =>
      if fl then
        match l with
        | Node.mk ll ld lr lh => ibt_search_loop i (Node.mk ll ld lr lh) key fl fr
        | Node.null => ibt_search_loop i r key fl fr
      else if fr then
        match r with
        | Node.mk rl rd rr rh => ibt_search_loop i (Node.mk rl rd rr rh) key fl fr
        | Node.null => ibt_search_loop i l key fl fr
      else if bitAt key i = 1 then
        match r with
        | Node.mk rl rd rr rh => ibt_search_loop i (Node.mk rl rd rr rh) key fl fr
        | Node.null => ibt_search_loop i l key fl true
      else
        match l with
        | Node.mk ll ld lr lh => ibt_search_loop i (Node.mk ll ld lr lh) key fl fr
        | Node.null => ibt_search_loop i r key true fr

/-- Translation of `ibt_search`: the walk starts at `trie->root` with both
fallback flags false; the root is not tested for null. -/
def ibt_search (trie : Trie) (key : Nat) : SearchResult :=
  ibt_search_loop BITSPERWORD trie.root key false false

/-- Translation of `ibt_size`. -/
def ibt_size (trie : Trie) : Nat := trie.size

/-- Translation of `ibt_node_count`. -/
def ibt_node_count (trie : Trie) : Nat := trie.node_count

/-- Translation of `ibt_height`. -/
def ibt_height (trie : Trie) : Nat := trie.height

/-- Translation of `show_tree`: the entries in the order in which they are
printed (left subtree, the node's own entry if any, right subtree). -/
def show_tree : Node → List Entry
  | Node.null => []
  | Node.mk l d r _ => show_tree l ++ (d.toList ++ show_tree r)

/-- The entries printed by `ibt_show`. -/
def ibt_show (trie : Trie) : List Entry := show_tree trie.root

/-- The keys printed by `show_tree`, in order. -/
def keys_of (n : Node) : List Nat := (show_tree n).map Entry.key

/-- A sequence of `ibt_insert` calls applied to the trie `t`. -/
def insert_all (t : Trie) (ops : List (Nat × Nat)) : Trie :=
  ops.foldl (fun acc p => ibt_insert acc p.1 p.2) t

/-- A sequence of `ibt_insert` calls applied to the empty trie of `ibt_create`. -/
def build (ops : List (Nat × Nat)) : Trie :=
  insert_all ibt_create ops

/-- Modelled from the spec: the width of `ikey_t`, declared in `trie.h` (not
among the sources), is 32 bits. Every key of the sequence is such a key. -/
def keys32 (ops : List (Nat × Nat)) : Prop :=
  ∀ p ∈ ops, p.1 < 2 ^ 32

instance (ops : List (Nat × Nat)) : Decidable (keys32 ops) :=
  inferInstanceAs (Decidable (∀ p ∈ ops, p.1 < 2 ^ 32))

/-! ## The invariant of a trie built by insertions, and common prefixes -/

/-- The invariant of a subtree: `Inv n p t` says that `t` is a well-formed
subtree for the keys whose bits above the lowest `n` spell `p`. A node holds
an entry and no child, or no entry and at least one child; the left child
takes the keys with next bit 0, the right child those with next bit 1; the
height field of a node with `n` key bits below it is `33 - n`. -/
inductive Inv : Nat → Nat → Node → Prop
  | null (n p : Nat) : Inv n p Node.null
  | leaf (n p : Nat) (e : Entry) (h : Nat) :
      e.key / 2 ^ n = p → h + n = 33 → Inv n p (Node.mk Node.null (some e) Node.null h)
  | branch (n p : Nat) (l r : Node) (h : Nat) :
      (l ≠ Node.null ∨ r ≠ Node.null) → Inv n (2 * p) l → Inv n (2 * p + 1) r →
      h + (n + 1) = 33 → Inv (n + 1) p (Node.mk l none r h)

/-- The invariant of a trie: its root is a well-formed subtree for all 32-bit
keys (32 key bits below it, empty prefix) and its height is at most 33. -/
structure TrieInv (t : Trie) : Prop where
  root_inv : Inv 32 0 t.root
  height_le : t.height ≤ 33

/-- The number of bits, counted from bit `i - 1` downwards, on which `a` and
`b` agree before they first differ. -/
def common_prefix_from : Nat → Nat → Nat → Nat
  | 0, _, _ => 0
  | i + 1, a, b => if bitAt a i = bitAt b i then 1 + common_prefix_from i a b else 0

/-- The length of the common most-significant-bit prefix of two 32-bit keys:
the number of bits, from bit 31 downwards, on which they agree before they
first differ. -/
def common_prefix_len (a b : Nat) : Nat :=
  common_prefix_from BITSPERWORD a b

/-- The test `node == NULL`. -/
def Node.is_null : Node → Bool
  | Node.null => true
  | Node.mk _ _ _ _ => false

/-- The node shape rule, checked at every node of a tree: a node holds an
entry and has no child, or holds no entry and has at least one child. -/
def shape_ok : Node → Bool
  | Node.null => true
  | Node.mk l d r _ =>
      (match d with
        | some _ => l.is_null && r.is_null
        | none => !(l.is_null && r.is_null)) && shape_ok l && shape_ok r

/-- The node reached from `t` by a sequence of child edges, `false` for
`left` and `true` for `right`; null when an edge leads to an absent child. -/
def descend : Node → List Bool → Node
  | t, [] => t
  | Node.null, _ :: _ => Node.null
  | Node.mk l _ r _, b :: bs => if b then descend r bs else descend l bs

/-- The number of nodes of a tree that hold no entry (branch points). -/
def branch_count : Node → Nat
  | Node.null => 0
  | Node.mk l d r _ =>
      (match d with
        | some _ => 0
        | none => 1) + branch_count l + branch_count r

/-- The number of nodes of a tree. -/
def node_total : Node → Nat
  | Node.null => 0
  | Node.mk l _ r _ => 1 + node_total l + node_total r

/-- The largest `height` field of a tree, 0 for the null pointer. -/
def max_height : Node → Nat
  | Node.null => 0
  | Node.mk l _ r h => max h (max (max_height l) (max_height r))

/-- The node `Node.mk Node.null (some e) Node.null h` after the first `if` of
the loop body of `ibt_insert` at bit `i`: it holds no entry and its only child
is a fresh leaf with the entry. -/
def split_leaf (i : Nat) (e : Entry) (h : Nat) : Node :=
  Node.mk (push_down i Node.null (some e) Node.null h).left none
    (push_down i Node.null (some e) Node.null h).right h

/-- The invariant of the counters of a trie: `node_count` is the number of
nodes without entry and `height` is the largest height of a node. -/
structure TrieCounters (t : Trie) : Prop where
  node_count_eq : t.node_count = branch_count t.root
  height_eq : t.height = max_height t.root

/-- The point at which the walk of `ibt_search` loses the path of `key`: the
loop of `ibt_search` followed in normal mode (both flags false) from
`current_node` with `n` iterations left, up to the first node without entry
whose child for the bit of `key` is absent. The result is that node together
with the index `i` of the bit tested there; `none` when the walk meets an
entry, a null pointer or the end of the loop first. -/
def fallback_point : Nat → Node → Nat → Option (Nat × Node)
  | _, Node.null, _ => none
  | _, Node.mk _ (some _) _ _, _ => none
  | 0, Node.mk _ none _ _, _ => none
  | i + 1, Node.mk l none r h, key =>
      if bitAt key i = 1 then
        match r with
        | Node.mk rl rd rr rh => fallback_point i (Node.mk rl rd rr rh) key
        | Node.null => some (i, Node.mk l none r h)
      else
        match l with
        | Node.mk ll ld lr lh => fallback_point i (Node.mk ll ld lr lh) key
        | Node.null => some (i, Node.mk l none r h)

/-- The shape of a chain of `c + 1` nodes without entry: each of the first
`c` nodes has exactly one child, the next node of the chain, and the last one
has exactly two children, both leaves, the left one holding `lo` and the right
one holding `hi`. -/
def two_key_chain (lo hi : Entry) : Nat → Node → Bool
  | 0, Node.mk (Node.mk Node.null (some x) Node.null _) none
      (Node.mk Node.null (some y) Node.null _) _ => decide (x = lo) && decide (y = hi)
  | c + 1, Node.mk (Node.mk ll ld lr lh) none Node.null _ =>
      two_key_chain lo hi c (Node.mk ll ld lr lh)
  | c + 1, Node.mk Node.null none (Node.mk rl rd rr rh) _ =>
      two_key_chain lo hi c (Node.mk rl rd rr rh)
  | _, _ => false

/-- The entry with its value replaced by `f` of it. -/
def map_entry (f : Nat → Nat) (e : Entry) : Entry :=
  { key := e.key, v := f e.v }

/-- The tree with every stored value replaced by `f` of it. -/
def map_values (f : Nat → Nat) : Node → Node
  | Node.null => Node.null
  | Node.mk l d r h => Node.mk (map_values f l) (d.map (map_entry f)) (map_values f r) h

/-- The trie with every stored value replaced by `f` of it. -/
def map_trie (f : Nat → Nat) (t : Trie) : Trie :=
  { root := map_values f t.root, height := t.height, size := t.size,
    node_count := t.node_count }

/-! ## Bits and prefixes -/

theorem bitAt_eq (k i : Nat) : bitAt k i = (k / 2 ^ i) % 2 := by
  unfold bitAt
  rw [Nat.and_one_is_mod, Nat.shiftRight_eq_div_pow]

theorem bitAt_cases (k i : Nat) : bitAt k i = 0 ∨ bitAt k i = 1 := by
  rw [bitAt_eq]; omega

/-- Dropping one bit less of a key appends its next bit to the prefix. -/
theorem prefix_step (k i p : Nat) (h : k / 2 ^ (i + 1) = p) :
    k / 2 ^ i = 2 * p + bitAt k i := by
  rw [bitAt_eq]
  have h2 : k / 2 ^ i / 2 = p := by
    rw [Nat.div_div_eq_div_mul, ← Nat.pow_succ]; exact h
  omega

theorem prefix_of_step (k i p b : Nat) (h : k / 2 ^ i = 2 * p + b) (hb : b < 2) :
    k / 2 ^ (i + 1) = p := by
  rw [Nat.pow_succ, ← Nat.div_div_eq_div_mul, h]; omega

/-! ## Basic facts about the invariant -/

@[simp] theorem show_tree_null : show_tree Node.null = [] := rfl

@[simp] theorem show_tree_mk (l r : Node) (d : Option Entry) (h : Nat) :
    show_tree (Node.mk l d r h) = show_tree l ++ (d.toList ++ show_tree r) := rfl

@[simp] theorem keys_of_null : keys_of Node.null = [] := rfl

@[simp] theorem keys_of_mk (l r : Node) (d : Option Entry) (h : Nat) :
    keys_of (Node.mk l d r h) = keys_of l ++ ((d.toList.map Entry.key) ++ keys_of r) := by
  simp [keys_of]

theorem mem_keys_of {t : Node} {k : Nat} : k ∈ keys_of t ↔ ∃ e ∈ show_tree t, e.key = k := by
  simp [keys_of]

/-- Every key stored below a node carries the prefix of that node. -/
theorem Inv.key_prefix {n p : Nat} {t : Node} (h : Inv n p t) :
    ∀ k ∈ keys_of t, k / 2 ^ n = p := by
  induction h with
  | null n p => simp
  | leaf n p e h hk _ => simp [hk]
  | branch n p l r h _ _ _ _ ihl ihr =>
      intro k hk
      simp only [keys_of_mk, Option.toList, List.map_nil, List.nil_append,
        List.mem_append] at hk
      rcases hk with hk | hk
      · exact prefix_of_step k n p 0 (by simpa using ihl k hk) (by omega)
      · exact prefix_of_step k n p 1 (ihr k hk) (by omega)

/-- A well-formed subtree that is not null stores at least one entry. -/
theorem Inv.show_tree_ne_nil {n p : Nat} {t : Node} (h : Inv n p t) (hne : t ≠ Node.null) :
    show_tree t ≠ [] := by
  induction h with
  | null n p => exact absurd rfl hne
  | leaf n p e h _ _ => simp
  | branch n p l r h hc _ _ _ ihl ihr =>
      rcases hc with hc | hc
      · have := ihl hc; simp [this]
      · have := ihr hc; simp [this]

/-- The keys of a well-formed subtree are printed in strictly ascending order. -/
theorem Inv.sorted {n p : Nat} {t : Node} (h : Inv n p t) :
    (keys_of t).Pairwise (· < ·) := by
  induction h with
  | null n p => simp
  | leaf n p e h _ _ => simp
  | branch n p l r h _ hl hr _ ihl ihr =>
      simp only [keys_of_mk, Option.toList, List.map_nil, List.nil_append]
      rw [List.pairwise_append]
      refine ⟨ihl, ihr, ?_⟩
      intro a ha b hb
      have h1 := hl.key_prefix a ha
      have h2 := hr.key_prefix b hb
      apply Nat.lt_of_div_lt_div (c := 2 ^ n)
      rw [h1, h2]; omega

/-! ## One iteration of the insertion loop, case by case -/

theorem holds_key_none (ip : Nat) : holds_key none ip = false := rfl

theorem holds_key_some_eq (e : Entry) (ip : Nat) (h : e.key = ip) :
    holds_key (some e) ip = true := by
  simp [holds_key, h]

theorem holds_key_some_ne (e : Entry) (ip : Nat) (h : e.key ≠ ip) :
    holds_key (some e) ip = false := by
  simp [holds_key, h]

theorem insert_loop_zero (cur : Node) (ip v : Nat) :
    ibt_insert_loop 0 cur ip v =
      { node := cur, splits := 0, exit := InsertExit.fellThrough } := by
  cases cur <;> rfl

theorem insert_loop_dup_here (i : Nat) (l r : Node) (d : Option Entry) (h ip v : Nat)
    (hk : holds_key d ip = true) :
    ibt_insert_loop (i + 1) (Node.mk l d r h) ip v =
      { node := Node.mk l d r h, splits := 0, exit := InsertExit.duplicate } := by
  simp [ibt_insert_loop, hk]

theorem insert_loop_right_new (i : Nat) (l r : Node) (d : Option Entry) (h ip v : Nat)
    (hk : holds_key d ip = false) (hb : bitAt ip i = 1)
    (hr : (push_down i l d r h).right = Node.null) :
    ibt_insert_loop (i + 1) (Node.mk l d r h) ip v =
      { node := Node.mk (push_down i l d r h).left none
          (new_leaf (create_entry ip v) (h + 1)) h,
        splits := (push_down i l d r h).splits, exit := InsertExit.created (h + 1) } := by
  simp [ibt_insert_loop, hk, hb, hr]

theorem insert_loop_right_descend (i : Nat) (l r : Node) (d : Option Entry) (h ip v : Nat)
    (hk : holds_key d ip = false) (hb : bitAt ip i = 1)
    (hr : (push_down i l d r h).right ≠ Node.null) :
    ibt_insert_loop (i + 1) (Node.mk l d r h) ip v =
      { node := Node.mk (push_down i l d r h).left none
          (ibt_insert_loop i (push_down i l d r h).right ip v).node h,
        splits := (push_down i l d r h).splits +
          (ibt_insert_loop i (push_down i l d r h).right ip v).splits,
        exit := (ibt_insert_loop i (push_down i l d r h).right ip v).exit } := by
  simp only [ibt_insert_loop, hk, hb]
  cases hs : (push_down i l d r h).right with
  | null => exact absurd hs hr
  | mk rl rd rr rh => simp

theorem insert_loop_left_new (i : Nat) (l r : Node) (d : Option Entry) (h ip v : Nat)
    (hk : holds_key d ip = false) (hb : bitAt ip i = 0)
    (hl : (push_down i l d r h).left = Node.null) :
    ibt_insert_loop (i + 1) (Node.mk l d r h) ip v =
      { node := Node.mk (new_leaf (create_entry ip v) (h + 1)) none
          (push_down i l d r h).right h,
        splits := (push_down i l d r h).splits, exit := InsertExit.created (h + 1) } := by
  simp [ibt_insert_loop, hk, hb, hl]

theorem insert_loop_left_descend (i : Nat) (l r : Node) (d : Option Entry) (h ip v : Nat)
    (hk : holds_key d ip = false) (hb : bitAt ip i = 0)
    (hl : (push_down i l d r h).left ≠ Node.null) :
    ibt_insert_loop (i + 1) (Node.mk l d r h) ip v =
      { node := Node.mk (ibt_insert_loop i (push_down i l d r h).left ip v).node none
          (push_down i l d r h).right h,
        splits := (push_down i l d r h).splits +
          (ibt_insert_loop i (push_down i l d r h).left ip v).splits,
        exit := (ibt_insert_loop i (push_down i l d r h).left ip v).exit } := by
  simp only [ibt_insert_loop, hk, hb]
  cases hs : (push_down i l d r h).left with
  | null => exact absurd hs hl
  | mk ll ld lr lh => simp

/-! ## The insertion loop on a well-formed subtree -/

/-- A key that is already stored below the current node: the loop changes
nothing in the subtree and ends on the duplicate test, or runs out of
iterations when the key sits in a node it reaches after its last step. -/
theorem insert_loop_dup (n : Nat) : ∀ (cur : Node) (p ip v : Nat),
    Inv n p cur → ip ∈ keys_of cur →
    (ibt_insert_loop n cur ip v).node = cur ∧ (ibt_insert_loop n cur ip v).splits = 0 ∧
    ((ibt_insert_loop n cur ip v).exit = InsertExit.duplicate ∨
      (ibt_insert_loop n cur ip v).exit = InsertExit.fellThrough) := by
  induction n with
  | zero =>
      intro cur p ip v _ _
      simp [insert_loop_zero]
  | succ i ih =>
      intro cur p ip v hinv hmem
      cases hinv with
      | null => simp at hmem
      | leaf _ _ e h hk hh =>
          have hkey : e.key = ip := by simpa [eq_comm] using hmem
          rw [insert_loop_dup_here i _ _ _ h ip v (holds_key_some_eq e ip hkey)]
          simp
      | branch _ _ l r h hc hl hr hh =>
          simp only [keys_of_mk, Option.toList, List.map_nil, List.nil_append,
            List.mem_append] at hmem
          have hpd : push_down i l none r h = { left := l, right := r, splits := 0 } := rfl
          rcases hmem with hmem | hmem
          · have hb : bitAt ip i = 0 := by
              rw [bitAt_eq, hl.key_prefix ip hmem]; omega
            have hne : l ≠ Node.null := by
              intro h0; rw [h0] at hmem; simp at hmem
            rw [insert_loop_left_descend i l r none h ip v (holds_key_none ip) hb
              (by rw [hpd]; exact hne)]
            obtain ⟨h1, h2, h3⟩ := ih l (2 * p) ip v hl hmem
            simp only [hpd, h1, h2]
            exact ⟨trivial, trivial, h3⟩
          · have hb : bitAt ip i = 1 := by
              rw [bitAt_eq, hr.key_prefix ip hmem]; omega
            have hne : r ≠ Node.null := by
              intro h0; rw [h0] at hmem; simp at hmem
            rw [insert_loop_right_descend i l r none h ip v (holds_key_none ip) hb
              (by rw [hpd]; exact hne)]
            obtain ⟨h1, h2, h3⟩ := ih r (2 * p + 1) ip v hr hmem
            simp only [hpd, h1, h2]
            exact ⟨trivial, trivial, h3⟩

theorem new_leaf_ne_null (e : Entry) (h : Nat) : new_leaf e h ≠ Node.null := by
  simp [new_leaf]

@[simp] theorem show_tree_new_leaf (e : Entry) (h : Nat) : show_tree (new_leaf e h) = [e] := rfl

@[simp] theorem keys_of_new_leaf (e : Entry) (h : Nat) : keys_of (new_leaf e h) = [e.key] := rfl

theorem Inv.of_new_leaf (n p : Nat) (e : Entry) (h : Nat) (hk : e.key / 2 ^ n = p)
    (hh : h + n = 33) : Inv n p (new_leaf e h) :=
  Inv.leaf n p e h hk hh

/-- A key that is not stored below the current node (and belongs there): the
loop returns a well-formed subtree that stores one more entry, the new one,
and ends by linking a new leaf in. -/
theorem insert_loop_new (n : Nat) : ∀ (cur : Node) (p ip v : Nat),
    Inv n p cur → cur ≠ Node.null → ip / 2 ^ n = p → ip ∉ keys_of cur →
    Inv n p (ibt_insert_loop n cur ip v).node ∧
    (ibt_insert_loop n cur ip v).node ≠ Node.null ∧
    (∀ x, x ∈ show_tree (ibt_insert_loop n cur ip v).node ↔
      x = create_entry ip v ∨ x ∈ show_tree cur) ∧
    ∃ nh, (ibt_insert_loop n cur ip v).exit = InsertExit.created nh ∧ nh ≤ 33 := by
  induction n with
  | zero =>
      intro cur p ip v hinv hne hp hnm
      cases hinv with
      | null => exact absurd rfl hne
      | leaf _ _ e h hk hh =>
          exfalso; apply hnm
          simp only [pow_zero, Nat.div_one] at hk hp
          simp [hk, hp]
  | succ i ih =>
      intro cur p ip v hinv hne hp hnm
      cases hinv with
      | null => exact absurd rfl hne
      | leaf _ _ e h hk hh =>
          have hkey : e.key ≠ ip := by
            intro h0; apply hnm; simp [h0]
          have he := prefix_step e.key i p hk
          have hi := prefix_step ip i p hp
          have hnk := holds_key_some_ne e ip hkey
          have hfresh : Inv i (2 * p + bitAt ip i) (new_leaf (create_entry ip v) (h + 1)) :=
            Inv.of_new_leaf i _ _ (h + 1) hi (by omega)
          have hmoved : Inv i (2 * p + bitAt e.key i) (new_leaf e (h + 1)) :=
            Inv.of_new_leaf i _ _ (h + 1) he (by omega)
          have hnot : ip ∉ keys_of (new_leaf e (h + 1)) := by
            simpa using Ne.symm hkey
          rcases bitAt_cases e.key i with hbe | hbe <;> rcases bitAt_cases ip i with hbi | hbi
          · have hpd : push_down i Node.null (some e) Node.null h =
                { left := new_leaf e (h + 1), right := Node.null, splits := 1 } := by
              simp [push_down, hbe]
            rw [insert_loop_left_descend i _ _ _ h ip v hnk hbi
              (by rw [hpd]; exact new_leaf_ne_null _ _), hpd]
            rw [hbe] at hmoved
            obtain ⟨h1, h2, h3, nh, h4, h5⟩ := ih (new_leaf e (h + 1)) (2 * p) ip v
              (by simpa using hmoved) (new_leaf_ne_null _ _) (by rw [hi, hbi]; rfl) hnot
            refine ⟨Inv.branch i p _ _ h (Or.inl h2) h1 (Inv.null _ _) hh, by simp, ?_,
              nh, h4, h5⟩
            intro x; simp [h3]
          · have hpd : push_down i Node.null (some e) Node.null h =
                { left := new_leaf e (h + 1), right := Node.null, splits := 1 } := by
              simp [push_down, hbe]
            rw [insert_loop_right_new i _ _ _ h ip v hnk hbi (by rw [hpd]), hpd]
            rw [hbe] at hmoved; rw [hbi] at hfresh
            refine ⟨Inv.branch i p _ _ h (Or.inl (new_leaf_ne_null _ _))
              (by simpa using hmoved) hfresh hh, by simp, ?_, h + 1, rfl, by omega⟩
            intro x; simp [or_comm]
          · have hpd : push_down i Node.null (some e) Node.null h =
                { left := Node.null, right := new_leaf e (h + 1), splits := 1 } := by
              simp [push_down, hbe]
            rw [insert_loop_left_new i _ _ _ h ip v hnk hbi (by rw [hpd]), hpd]
            rw [hbe] at hmoved; rw [hbi] at hfresh
            refine ⟨Inv.branch i p _ _ h (Or.inl (new_leaf_ne_null _ _))
              (by simpa using hfresh) hmoved hh, by simp, ?_, h + 1, rfl, by omega⟩
            intro x; simp
          · have hpd : push_down i Node.null (some e) Node.null h =
                { left := Node.null, right := new_leaf e (h + 1), splits := 1 } := by
              simp [push_down, hbe]
            rw [insert_loop_right_descend i _ _ _ h ip v hnk hbi
              (by rw [hpd]; exact new_leaf_ne_null _ _), hpd]
            rw [hbe] at hmoved
            obtain ⟨h1, h2, h3, nh, h4, h5⟩ := ih (new_leaf e (h + 1)) (2 * p + 1) ip v
              hmoved (new_leaf_ne_null _ _) (by rw [hi, hbi]) hnot
            refine ⟨Inv.branch i p _ _ h (Or.inr h2) (Inv.null _ _) h1 hh, by simp, ?_,
              nh, h4, h5⟩
            intro x; simp [h3]
      | branch _ _ l r h hc hl hr hh =>
          simp only [keys_of_mk, Option.toList, List.map_nil, List.nil_append,
            List.mem_append, not_or] at hnm
          have hi := prefix_step ip i p hp
          have hpd : push_down i l none r h = { left := l, right := r, splits := 0 } := rfl
          have hfresh : Inv i (2 * p + bitAt ip i) (new_leaf (create_entry ip v) (h + 1)) :=
            Inv.of_new_leaf i _ _ (h + 1) hi (by omega)
          rcases bitAt_cases ip i with hbi | hbi
          · rw [hbi] at hfresh hi
            by_cases hl0 : l = Node.null
            · rw [insert_loop_left_new i _ _ _ h ip v (holds_key_none ip) hbi
                (by rw [hpd]; exact hl0), hpd]
              refine ⟨Inv.branch i p _ _ h (Or.inl (new_leaf_ne_null _ _))
                (by simpa using hfresh) hr hh, by simp, ?_, h + 1, rfl, by omega⟩
              intro x; simp [hl0]
            · rw [insert_loop_left_descend i _ _ _ h ip v (holds_key_none ip) hbi
                (by rw [hpd]; exact hl0), hpd]
              obtain ⟨h1, h2, h3, nh, h4, h5⟩ := ih l (2 * p) ip v hl hl0
                (by simpa using hi) hnm.1
              refine ⟨Inv.branch i p _ _ h (Or.inl h2) h1 hr hh, by simp, ?_, nh,
                by simpa using h4, h5⟩
              intro x; simp [h3, or_assoc]
          · rw [hbi] at hfresh hi
            by_cases hr0 : r = Node.null
            · rw [insert_loop_right_new i _ _ _ h ip v (holds_key_none ip) hbi
                (by rw [hpd]; exact hr0), hpd]
              refine ⟨Inv.branch i p _ _ h (Or.inr (new_leaf_ne_null _ _))
                hl hfresh hh, by simp, ?_, h + 1, rfl, by omega⟩
              intro x; simp [hr0, or_comm]
            · rw [insert_loop_right_descend i _ _ _ h ip v (holds_key_none ip) hbi
                (by rw [hpd]; exact hr0), hpd]
              obtain ⟨h1, h2, h3, nh, h4, h5⟩ := ih r (2 * p + 1) ip v hr hr0 hi hnm.2
              refine ⟨Inv.branch i p _ _ h (Or.inr h2) hl h1 hh, by simp, ?_, nh,
                by simpa using h4, h5⟩
              intro x; simp [h3]
              tauto

/-! ## `ibt_insert` on a well-formed trie -/

theorem ibt_create_inv : TrieInv ibt_create :=
  ⟨Inv.null _ _, by simp [ibt_create]⟩

theorem ibt_insert_root_null (t : Trie) (k v : Nat) (h : t.root = Node.null) :
    ibt_insert t k v =
      { root := new_leaf (create_entry k v) 1, height := 1,
        size := t.size + 1, node_count := t.node_count } := by
  simp [ibt_insert, h]

theorem ibt_insert_root_of_ne (t : Trie) (k v : Nat) (h : t.root ≠ Node.null) :
    (ibt_insert t k v).root = (insert_walk t.root k v).node ∧
    (ibt_insert t k v).node_count = t.node_count + (insert_walk t.root k v).splits := by
  unfold ibt_insert
  cases hr : t.root with
  | null => exact absurd hr h
  | mk l d r hh =>
      simp only
      cases (insert_walk (Node.mk l d r hh) k v).exit <;> simp

theorem ibt_insert_height_of_ne (t : Trie) (k v : Nat) (h : t.root ≠ Node.null) :
    (ibt_insert t k v).height =
      match (insert_walk t.root k v).exit with
      | InsertExit.created nh => if nh > t.height then nh else t.height
      | _ => t.height := by
  unfold ibt_insert
  cases hr : t.root with
  | null => exact absurd hr h
  | mk l d r hh =>
      simp only
      cases (insert_walk (Node.mk l d r hh) k v).exit <;> simp

theorem ibt_insert_size_of_ne (t : Trie) (k v : Nat) (h : t.root ≠ Node.null) :
    (ibt_insert t k v).size =
      match (insert_walk t.root k v).exit with
      | InsertExit.duplicate => t.size
      | _ => t.size + 1 := by
  unfold ibt_insert
  cases hr : t.root with
  | null => exact absurd hr h
  | mk l d r hh =>
      simp only
      cases (insert_walk (Node.mk l d r hh) k v).exit <;> simp

/-- Inserting a key that is stored leaves the tree, `node_count` and `height`
as they are. -/
theorem ibt_insert_stored (t : Trie) (k v : Nat) (hinv : Inv 32 0 t.root)
    (hmem : k ∈ keys_of t.root) :
    (ibt_insert t k v).root = t.root ∧ (ibt_insert t k v).node_count = t.node_count ∧
    (ibt_insert t k v).height = t.height := by
  have hne : t.root ≠ Node.null := by
    intro h0; rw [h0] at hmem; simp at hmem
  obtain ⟨h1, h2, h3⟩ := insert_loop_dup 32 t.root 0 k v hinv hmem
  obtain ⟨e1, e2⟩ := ibt_insert_root_of_ne t k v hne
  have e3 := ibt_insert_height_of_ne t k v hne
  simp only [insert_walk, BITSPERWORD] at e1 e2 e3
  rw [e1, e2, e3, h1, h2]
  refine ⟨rfl, rfl, ?_⟩
  rcases h3 with h3 | h3 <;> rw [h3]

/-- Inserting a new 32-bit key gives a well-formed tree that stores one more
entry, and increments `size`. -/
theorem ibt_insert_fresh (t : Trie) (k v : Nat) (hinv : TrieInv t) (hk : k < 2 ^ 32)
    (hmem : k ∉ keys_of t.root) :
    TrieInv (ibt_insert t k v) ∧
    (∀ x, x ∈ show_tree (ibt_insert t k v).root ↔
      x = create_entry k v ∨ x ∈ show_tree t.root) ∧
    (ibt_insert t k v).size = t.size + 1 := by
  by_cases hnull : t.root = Node.null
  · rw [ibt_insert_root_null t k v hnull]
    refine ⟨⟨?_, by simp⟩, ?_, rfl⟩
    · exact Inv.of_new_leaf 32 0 _ 1 (Nat.div_eq_of_lt hk) rfl
    · intro x; simp [hnull]
  · obtain ⟨h1, _, h3, nh, h4, h5⟩ :=
      insert_loop_new 32 t.root 0 k v hinv.root_inv hnull (Nat.div_eq_of_lt hk) hmem
    obtain ⟨e1, _⟩ := ibt_insert_root_of_ne t k v hnull
    have e3 := ibt_insert_height_of_ne t k v hnull
    have e4 := ibt_insert_size_of_ne t k v hnull
    simp only [insert_walk, BITSPERWORD] at e1 e3 e4
    rw [h4] at e3 e4
    refine ⟨⟨by rw [e1]; exact h1, ?_⟩, by rw [e1]; exact h3, e4⟩
    rw [e3]
    have := hinv.height_le
    simp only
    split <;> omega

theorem ibt_insert_inv (t : Trie) (k v : Nat) (hinv : TrieInv t) (hk : k < 2 ^ 32) :
    TrieInv (ibt_insert t k v) := by
  by_cases hmem : k ∈ keys_of t.root
  · obtain ⟨h1, _, h3⟩ := ibt_insert_stored t k v hinv.root_inv hmem
    exact ⟨by rw [h1]; exact hinv.root_inv, by rw [h3]; exact hinv.height_le⟩
  · exact (ibt_insert_fresh t k v hinv hk hmem).1

/-- The entries stored after an insertion: those stored before, and the new
entry when its key was not stored. -/
theorem ibt_insert_mem (t : Trie) (k v : Nat) (hinv : TrieInv t) (hk : k < 2 ^ 32)
    (x : Entry) :
    x ∈ show_tree (ibt_insert t k v).root ↔
      x ∈ show_tree t.root ∨ (x = create_entry k v ∧ k ∉ keys_of t.root) := by
  by_cases hmem : k ∈ keys_of t.root
  · rw [(ibt_insert_stored t k v hinv.root_inv hmem).1]
    simp [hmem]
  · rw [(ibt_insert_fresh t k v hinv hk hmem).2.1 x]
    simp [hmem, or_comm]

theorem keys32_cons {p : Nat × Nat} {ops : List (Nat × Nat)} :
    keys32 (p :: ops) ↔ p.1 < 2 ^ 32 ∧ keys32 ops := by
  simp [keys32]

theorem insert_all_inv (ops : List (Nat × Nat)) : ∀ (t : Trie), TrieInv t → keys32 ops →
    TrieInv (insert_all t ops) := by
  induction ops with
  | nil => intro t ht _; exact ht
  | cons p rest ih =>
      intro t ht hk
      rw [keys32_cons] at hk
      exact ih (ibt_insert t p.1 p.2) (ibt_insert_inv t p.1 p.2 ht hk.1) hk.2

/-- Every trie built by insertions of 32-bit keys is well formed. -/
theorem build_inv (ops : List (Nat × Nat)) (hk : keys32 ops) : TrieInv (build ops) :=
  insert_all_inv ops ibt_create ibt_create_inv hk

/-! ## What a trie built by insertions stores -/

theorem mem_keys_of_insert (t : Trie) (k v : Nat) (hinv : TrieInv t) (hk : k < 2 ^ 32)
    (a : Nat) : a ∈ keys_of (ibt_insert t k v).root ↔ a ∈ keys_of t.root ∨ a = k := by
  simp only [mem_keys_of, ibt_insert_mem t k v hinv hk]
  constructor
  · rintro ⟨e, he | ⟨he, _⟩, rfl⟩
    · exact Or.inl ⟨e, he, rfl⟩
    · right; rw [he]; rfl
  · rintro (⟨e, he, rfl⟩ | rfl)
    · exact ⟨e, Or.inl he, rfl⟩
    · by_cases hm : a ∈ keys_of t.root
      · obtain ⟨e, he, hea⟩ := mem_keys_of.mp hm
        exact ⟨e, Or.inl he, hea⟩
      · exact ⟨create_entry a v, Or.inr ⟨rfl, fun h => hm (mem_keys_of.mpr h)⟩, rfl⟩

/-- The entries stored after a sequence of insertions into `t`: those of `t`,
and for each key that `t` did not store the value of its first insertion. -/
theorem insert_all_mem (ops : List (Nat × Nat)) : ∀ (t : Trie), TrieInv t → keys32 ops →
    ∀ x : Entry, x ∈ show_tree (insert_all t ops).root ↔
      x ∈ show_tree t.root ∨ (x.key ∉ keys_of t.root ∧ ops.lookup x.key = some x.v) := by
  induction ops with
  | nil => intro t _ _ x; simp [insert_all]
  | cons p rest ih =>
      intro t ht hk x
      rw [keys32_cons] at hk
      have hstep : insert_all t (p :: rest) = insert_all (ibt_insert t p.1 p.2) rest := rfl
      rw [hstep, ih _ (ibt_insert_inv t p.1 p.2 ht hk.1) hk.2 x,
        ibt_insert_mem t p.1 p.2 ht hk.1, mem_keys_of_insert t p.1 p.2 ht hk.1]
      obtain ⟨pk, pv⟩ := p
      obtain ⟨xk, xv⟩ := x
      simp only [List.lookup_cons, create_entry, Entry.mk.injEq]
      by_cases hx : xk = pk
      · subst hx
        simp only [beq_self_eq_true, Option.some.injEq]
        tauto
      · have hb : (xk == pk) = false := by simpa using hx
        simp only [hb]
        tauto

/-- The entries stored by a trie built by insertions: one per key, with the
value of the key's first insertion. -/
theorem build_mem (ops : List (Nat × Nat)) (hk : keys32 ops) (x : Entry) :
    x ∈ show_tree (build ops).root ↔ ops.lookup x.key = some x.v := by
  have := insert_all_mem ops ibt_create ibt_create_inv hk x
  simpa [build, ibt_create] using this

theorem lookup_isSome_iff (ops : List (Nat × Nat)) (k : Nat) :
    (∃ v, ops.lookup k = some v) ↔ k ∈ ops.map Prod.fst := by
  induction ops with
  | nil => simp
  | cons p rest ih =>
      obtain ⟨pk, pv⟩ := p
      simp only [List.lookup_cons, List.map_cons, List.mem_cons]
      by_cases hx : k = pk
      · subst hx; simp
      · have hb : (k == pk) = false := by simpa using hx
        simp only [hb, ih]
        tauto

/-- The keys stored by a trie built by insertions are the keys inserted. -/
theorem build_keys (ops : List (Nat × Nat)) (hk : keys32 ops) (k : Nat) :
    k ∈ keys_of (build ops).root ↔ k ∈ ops.map Prod.fst := by
  rw [← lookup_isSome_iff, mem_keys_of]
  constructor
  · rintro ⟨e, he, rfl⟩
    exact ⟨e.v, (build_mem ops hk e).mp he⟩
  · rintro ⟨v, hv⟩
    exact ⟨⟨k, v⟩, (build_mem ops hk ⟨k, v⟩).mpr hv, rfl⟩

theorem build_root_ne_null (ops : List (Nat × Nat)) (hk : keys32 ops) (hne : ops ≠ []) :
    (build ops).root ≠ Node.null := by
  intro h0
  cases ops with
  | nil => exact hne rfl
  | cons p rest =>
      have : p.1 ∈ keys_of (build (p :: rest)).root := by
        rw [build_keys _ hk]; simp
      rw [h0] at this
      simp at this

/-! ## The search loop, case by case -/

theorem search_loop_entry (n : Nat) (l r : Node) (e : Entry) (h key : Nat) (fl fr : Bool) :
    ibt_search_loop n (Node.mk l (some e) r h) key fl fr = SearchResult.found e := by
  cases n <;> simp [ibt_search_loop]

theorem search_loop_leftmost (i : Nat) (l r : Node) (h key : Nat) (fr : Bool) :
    ibt_search_loop (i + 1) (Node.mk l none r h) key true fr =
      if l = Node.null then ibt_search_loop i r key true fr
      else ibt_search_loop i l key true fr := by
  cases l <;> simp [ibt_search_loop]

theorem search_loop_rightmost (i : Nat) (l r : Node) (h key : Nat) :
    ibt_search_loop (i + 1) (Node.mk l none r h) key false true =
      if r = Node.null then ibt_search_loop i l key false true
      else ibt_search_loop i r key false true := by
  cases r <;> simp [ibt_search_loop]

theorem search_loop_bit_one (i : Nat) (l r : Node) (h key : Nat) (hb : bitAt key i = 1) :
    ibt_search_loop (i + 1) (Node.mk l none r h) key false false =
      if r = Node.null then ibt_search_loop i l key false true
      else ibt_search_loop i r key false false := by
  cases r <;> simp [ibt_search_loop, hb]

theorem search_loop_bit_zero (i : Nat) (l r : Node) (h key : Nat) (hb : bitAt key i = 0) :
    ibt_search_loop (i + 1) (Node.mk l none r h) key false false =
      if l = Node.null then ibt_search_loop i r key true false
      else ibt_search_loop i l key false false := by
  cases l <;> simp [ibt_search_loop, hb]

/-! ## The search loop on a well-formed subtree -/

/-- In leftmost fallback the walk ends at the first entry of the in-order
traversal of the subtree. -/
theorem search_leftmost {n p : Nat} {cur : Node} (hinv : Inv n p cur) (key : Nat) (fr : Bool)
    (hne : cur ≠ Node.null) :
    ∃ e rest, show_tree cur = e :: rest ∧
      ibt_search_loop n cur key true fr = SearchResult.found e := by
  induction hinv with
  | null n p => exact absurd rfl hne
  | leaf n p e h _ _ => exact ⟨e, [], by simp, search_loop_entry _ _ _ _ _ _ _ _⟩
  | branch n p l r h hc _ _ _ ihl ihr =>
      rw [search_loop_leftmost]
      by_cases hl0 : l = Node.null
      · have hr0 : r ≠ Node.null := by
          rcases hc with hc | hc
          · exact absurd hl0 hc
          · exact hc
        obtain ⟨e, rest, h1, h2⟩ := ihr hr0
        exact ⟨e, rest, by simp [hl0, h1], by simp [hl0, h2]⟩
      · obtain ⟨e, rest, h1, h2⟩ := ihl hl0
        exact ⟨e, rest ++ show_tree r, by simp [h1], by simp [hl0, h2]⟩

/-- In rightmost fallback the walk ends at the last entry of the in-order
traversal of the subtree. -/
theorem search_rightmost {n p : Nat} {cur : Node} (hinv : Inv n p cur) (key : Nat)
    (hne : cur ≠ Node.null) :
    ∃ e rest, show_tree cur = rest ++ [e] ∧
      ibt_search_loop n cur key false true = SearchResult.found e := by
  induction hinv with
  | null n p => exact absurd rfl hne
  | leaf n p e h _ _ => exact ⟨e, [], by simp, search_loop_entry _ _ _ _ _ _ _ _⟩
  | branch n p l r h hc _ _ _ ihl ihr =>
      rw [search_loop_rightmost]
      by_cases hr0 : r = Node.null
      · have hl0 : l ≠ Node.null := by
          rcases hc with hc | hc
          · exact hc
          · exact absurd hr0 hc
        obtain ⟨e, rest, h1, h2⟩ := ihl hl0
        exact ⟨e, rest, by simp [hr0, h1], by simp [hr0, h2]⟩
      · obtain ⟨e, rest, h1, h2⟩ := ihr hr0
        exact ⟨e, show_tree l ++ rest, by simp [h1], by simp [hr0, h2]⟩

/-- The first entry of the traversal of a well-formed subtree has its smallest key. -/
theorem Inv.head_le {n p : Nat} {cur : Node} (hinv : Inv n p cur) {e : Entry}
    {rest : List Entry} (hs : show_tree cur = e :: rest) :
    ∀ s ∈ keys_of cur, e.key ≤ s := by
  have hsorted := hinv.sorted
  simp only [keys_of, hs, List.map_cons, List.pairwise_cons] at hsorted ⊢
  intro s hmem
  rcases List.mem_cons.mp hmem with h | h
  · exact Nat.le_of_eq h.symm
  · exact Nat.le_of_lt (hsorted.1 s h)

/-- The last entry of the traversal of a well-formed subtree has its largest key. -/
theorem Inv.le_last {n p : Nat} {cur : Node} (hinv : Inv n p cur) {e : Entry}
    {rest : List Entry} (hs : show_tree cur = rest ++ [e]) :
    ∀ s ∈ keys_of cur, s ≤ e.key := by
  have hsorted := hinv.sorted
  simp only [keys_of, hs, List.map_append, List.map_cons, List.map_nil,
    List.pairwise_append] at hsorted ⊢
  intro s hmem
  rcases List.mem_append.mp hmem with h | h
  · exact Nat.le_of_lt (hsorted.2.2 s h e.key (by simp))
  · simp at h; exact Nat.le_of_eq h

theorem prefix_lt {a b n p : Nat} (ha : a / 2 ^ n = 2 * p) (hb : b / 2 ^ n = 2 * p + 1) :
    a < b := by
  apply Nat.lt_of_div_lt_div (c := 2 ^ n)
  rw [ha, hb]; omega

theorem mem_keys_of_mem {t : Node} {e : Entry} (h : e ∈ show_tree t) : e.key ∈ keys_of t :=
  mem_keys_of.mpr ⟨e, h, rfl⟩

/-- The walk of `ibt_search` from a node on the path of `key`: it ends at an
entry of the subtree, and no key stored in the subtree lies between `key` and
the key of that entry (in either order) apart from that key itself. -/
theorem search_adjacent {n p : Nat} {cur : Node} (hinv : Inv n p cur) (key : Nat)
    (hne : cur ≠ Node.null) (hp : key / 2 ^ n = p) :
    ∃ e, ibt_search_loop n cur key false false = SearchResult.found e ∧
      e ∈ show_tree cur ∧
      ∀ s ∈ keys_of cur, (key ≤ s → s ≤ e.key → s = e.key) ∧
        (e.key ≤ s → s ≤ key → s = e.key) := by
  induction hinv with
  | null n p => exact absurd rfl hne
  | leaf n p e h _ _ =>
      refine ⟨e, search_loop_entry _ _ _ _ _ _ _ _, by simp, ?_⟩
      intro s hs
      have : s = e.key := by simpa using hs
      exact ⟨fun _ _ => this, fun _ _ => this⟩
  | branch n p l r h hc hl hr _ ihl ihr =>
      have hi := prefix_step key n p hp
      rcases bitAt_cases key n with hb | hb
      · rw [hb] at hi
        rw [search_loop_bit_zero _ _ _ _ _ hb]
        by_cases hl0 : l = Node.null
        · have hr0 : r ≠ Node.null := by
            rcases hc with hc | hc
            · exact absurd hl0 hc
            · exact hc
          obtain ⟨e, rest, h1, h2⟩ := search_leftmost hr key false hr0
          refine ⟨e, by simp [hl0, h2], by simp [h1], ?_⟩
          intro s hs
          have hs' : s ∈ keys_of r := by simpa [hl0] using hs
          have hlt : key < s := prefix_lt hi (hr.key_prefix s hs')
          have hmin := hr.head_le h1 s hs'
          exact ⟨fun _ h3 => Nat.le_antisymm h3 hmin, fun _ h3 => by omega⟩
        · obtain ⟨e, h1, h2, h3⟩ := ihl hl0 hi
          refine ⟨e, by simp [hl0, h1], by simp [h2], ?_⟩
          intro s hs
          simp only [keys_of_mk, Option.toList, List.map_nil, List.nil_append,
            List.mem_append] at hs
          rcases hs with hs | hs
          · exact h3 s hs
          · have hlt : key < s := prefix_lt hi (hr.key_prefix s hs)
            have hlt2 : e.key < s :=
              prefix_lt (hl.key_prefix _ (mem_keys_of_mem h2)) (hr.key_prefix s hs)
            exact ⟨fun _ h4 => by omega, fun _ h4 => by omega⟩
      · rw [hb] at hi
        rw [search_loop_bit_one _ _ _ _ _ hb]
        by_cases hr0 : r = Node.null
        · have hl0 : l ≠ Node.null := by
            rcases hc with hc | hc
            · exact hc
            · exact absurd hr0 hc
          obtain ⟨e, rest, h1, h2⟩ := search_rightmost hl key hl0
          refine ⟨e, by simp [hr0, h2], by simp [h1], ?_⟩
          intro s hs
          have hs' : s ∈ keys_of l := by simpa [hr0] using hs
          have hlt : s < key := prefix_lt (hl.key_prefix s hs') hi
          have hmax := hl.le_last h1 s hs'
          exact ⟨fun _ h3 => by omega, fun h3 _ => Nat.le_antisymm hmax h3⟩
        · obtain ⟨e, h1, h2, h3⟩ := ihr hr0 hi
          refine ⟨e, by simp [hr0, h1], by simp [h2], ?_⟩
          intro s hs
          simp only [keys_of_mk, Option.toList, List.map_nil, List.nil_append,
            List.mem_append] at hs
          rcases hs with hs | hs
          · have hlt : s < key := prefix_lt (hl.key_prefix s hs) hi
            have hlt2 : s < e.key :=
              prefix_lt (hl.key_prefix s hs) (hr.key_prefix _ (mem_keys_of_mem h2))
            exact ⟨fun _ h4 => by omega, fun _ h4 => by omega⟩
          · exact h3 s hs

/-! ## Common prefixes -/

theorem div_pow_of_le {a b m i : Nat} (hmi : m ≤ i) (h : a / 2 ^ m = b / 2 ^ m) :
    a / 2 ^ i = b / 2 ^ i := by
  obtain ⟨d, rfl⟩ := Nat.exists_eq_add_of_le hmi
  rw [pow_add, ← Nat.div_div_eq_div_mul, ← Nat.div_div_eq_div_mul, h]

/-- Keys that agree above bit `m` share at least the bits from `i - 1` down to `m`. -/
theorem common_prefix_from_ge (a b : Nat) : ∀ (i m : Nat), m ≤ i → a / 2 ^ m = b / 2 ^ m →
    i - m ≤ common_prefix_from i a b := by
  intro i
  induction i with
  | zero => intro m _ _; simp
  | succ i ih =>
      intro m hm h
      by_cases hmi : m ≤ i
      · have hbit : bitAt a i = bitAt b i := by
          rw [bitAt_eq, bitAt_eq, div_pow_of_le hmi h]
        have := ih m hmi h
        simp only [common_prefix_from, hbit, if_true]
        omega
      · have : i + 1 - m = 0 := by omega
        omega

/-- Keys that agree above bit `m + 1` and differ at bit `m` share exactly the
bits from `i - 1` down to `m + 1`. -/
theorem common_prefix_from_eq (a b : Nat) : ∀ (i m : Nat), m < i →
    a / 2 ^ (m + 1) = b / 2 ^ (m + 1) → a / 2 ^ m ≠ b / 2 ^ m →
    common_prefix_from i a b = i - (m + 1) := by
  intro i
  induction i with
  | zero => intro m hm; omega
  | succ i ih =>
      intro m hm h hne
      by_cases hmi : m < i
      · have hbit : bitAt a i = bitAt b i := by
          rw [bitAt_eq, bitAt_eq, div_pow_of_le (show m + 1 ≤ i by omega) h]
        have := ih m hmi h hne
        simp only [common_prefix_from, hbit, if_true]
        omega
      · have hmeq : m = i := by omega
        subst hmeq
        have hbit : bitAt a m ≠ bitAt b m := by
          intro hbit
          apply hne
          rw [prefix_step a m _ rfl, prefix_step b m _ rfl, hbit, h]
        simp [common_prefix_from, hbit]

/-- The walk of `ibt_search` from a node on the path of `key` ends at an entry
of the subtree whose key shares with `key` a prefix at least as long as any
key stored in the subtree does. -/
theorem search_nearest {n p : Nat} {cur : Node} (hinv : Inv n p cur) (key : Nat)
    (hne : cur ≠ Node.null) (hp : key / 2 ^ n = p) (hn : n ≤ 32) :
    ∃ e, ibt_search_loop n cur key false false = SearchResult.found e ∧
      e ∈ show_tree cur ∧
      ∀ s ∈ keys_of cur, common_prefix_len key s ≤ common_prefix_len key e.key := by
  induction hinv with
  | null n p => exact absurd rfl hne
  | leaf n p e h _ _ =>
      refine ⟨e, search_loop_entry _ _ _ _ _ _ _ _, by simp, ?_⟩
      intro s hs
      have : s = e.key := by simpa using hs
      rw [this]
  | branch n p l r h hc hl hr _ ihl ihr =>
      have hi := prefix_step key n p hp
      -- a key of the other half shares exactly the prefix of this node
      have hfar : ∀ s q : Nat, s / 2 ^ n = q → q / 2 = p → q ≠ key / 2 ^ n →
          common_prefix_len key s = 32 - (n + 1) := by
        intro s q hs hq hqk
        have hs1 : s / 2 ^ (n + 1) = p := by
          rw [Nat.pow_succ, ← Nat.div_div_eq_div_mul, hs, hq]
        exact common_prefix_from_eq key s 32 n (by omega) (by rw [hp, hs1])
          (by rw [hs]; exact fun h0 => hqk h0.symm)
      have hnear : ∀ s : Nat, s / 2 ^ n = key / 2 ^ n →
          32 - n ≤ common_prefix_len key s := by
        intro s hs
        exact common_prefix_from_ge key s 32 n (by omega) hs.symm
      rcases bitAt_cases key n with hb | hb
      · rw [hb, Nat.add_zero] at hi
        rw [search_loop_bit_zero _ _ _ _ _ hb]
        by_cases hl0 : l = Node.null
        · have hr0 : r ≠ Node.null := by
            rcases hc with hc | hc
            · exact absurd hl0 hc
            · exact hc
          obtain ⟨e, rest, h1, h2⟩ := search_leftmost hr key false hr0
          refine ⟨e, by simp [hl0, h2], by simp [h1], ?_⟩
          intro s hs
          have hs' : s ∈ keys_of r := by simpa [hl0] using hs
          have he' : e.key ∈ keys_of r := mem_keys_of_mem (by simp [h1])
          rw [hfar s _ (hr.key_prefix s hs') (by omega) (by omega),
            hfar e.key _ (hr.key_prefix _ he') (by omega) (by omega)]
        · obtain ⟨e, h1, h2, h3⟩ := ihl hl0 hi (by omega)
          refine ⟨e, by simp [hl0, h1], by simp [h2], ?_⟩
          intro s hs
          simp only [keys_of_mk, Option.toList, List.map_nil, List.nil_append,
            List.mem_append] at hs
          rcases hs with hs | hs
          · exact h3 s hs
          · rw [hfar s _ (hr.key_prefix s hs) (by omega) (by omega)]
            have := hnear e.key (by rw [hl.key_prefix _ (mem_keys_of_mem h2), hi])
            omega
      · rw [hb] at hi
        rw [search_loop_bit_one _ _ _ _ _ hb]
        by_cases hr0 : r = Node.null
        · have hl0 : l ≠ Node.null := by
            rcases hc with hc | hc
            · exact hc
            · exact absurd hr0 hc
          obtain ⟨e, rest, h1, h2⟩ := search_rightmost hl key hl0
          refine ⟨e, by simp [hr0, h2], by simp [h1], ?_⟩
          intro s hs
          have hs' : s ∈ keys_of l := by simpa [hr0] using hs
          have he' : e.key ∈ keys_of l := mem_keys_of_mem (by simp [h1])
          rw [hfar s _ (hl.key_prefix s hs') (by omega) (by omega),
            hfar e.key _ (hl.key_prefix _ he') (by omega) (by omega)]
        · obtain ⟨e, h1, h2, h3⟩ := ihr hr0 hi (by omega)
          refine ⟨e, by simp [hr0, h1], by simp [h2], ?_⟩
          intro s hs
          simp only [keys_of_mk, Option.toList, List.map_nil, List.nil_append,
            List.mem_append] at hs
          rcases hs with hs | hs
          · rw [hfar s _ (hl.key_prefix s hs) (by omega) (by omega)]
            have := hnear e.key (by rw [hr.key_prefix _ (mem_keys_of_mem h2), hi])
            omega
          · exact h3 s hs

theorem keys32_of_mem {ops : List (Nat × Nat)} (hk : keys32 ops) {k : Nat}
    (hmem : k ∈ ops.map Prod.fst) : k < 2 ^ 32 := by
  obtain ⟨p, hp, rfl⟩ := List.mem_map.mp hmem
  exact hk p hp

/-- The walk of `ibt_search` from the root of a non-empty trie built by
insertions: it returns a stored entry that is adjacent to the query among the
stored keys and nearest to it in prefix length. -/
theorem build_search (ops : List (Nat × Nat)) (hk : keys32 ops) (hne : ops ≠ []) (q : Nat)
    (hq : q < 2 ^ 32) :
    ∃ e, ibt_search (build ops) q = SearchResult.found e ∧
      e ∈ show_tree (build ops).root ∧
      (∀ s ∈ keys_of (build ops).root, (q ≤ s → s ≤ e.key → s = e.key) ∧
        (e.key ≤ s → s ≤ q → s = e.key)) ∧
      ∀ s ∈ keys_of (build ops).root, common_prefix_len q s ≤ common_prefix_len q e.key := by
  have hinv := (build_inv ops hk).root_inv
  have hroot := build_root_ne_null ops hk hne
  obtain ⟨e, h1, h2, h3⟩ := search_adjacent hinv q hroot (Nat.div_eq_of_lt hq)
  obtain ⟨e', h1', _, h3'⟩ := search_nearest hinv q hroot (Nat.div_eq_of_lt hq) (le_refl _)
  have hee : e' = e := by
    rw [h1] at h1'
    exact (SearchResult.found.inj h1').symm
  subst hee
  exact ⟨e', h1, h2, h3, h3'⟩

theorem insert_all_nil (t : Trie) : insert_all t [] = t := rfl

theorem insert_all_cons (t : Trie) (k v : Nat) (ops : List (Nat × Nat)) :
    insert_all t ((k, v) :: ops) = insert_all (ibt_insert t k v) ops := rfl

theorem build_pair (k1 v1 k2 v2 : Nat) :
    build [(k1, v1), (k2, v2)] = ibt_insert (ibt_insert ibt_create k1 v1) k2 v2 := by
  rw [build, insert_all_cons, insert_all_cons, insert_all_nil]

/-! ## The claims -/

/-- C1, exact match: after any sequence of `ibt_insert` calls on an empty trie,
`ibt_search` of a key that occurs in the sequence returns an entry with that key. -/
theorem search_exact_match (ops : List (Nat × Nat)) (hk : keys32 ops) (k : Nat)
    (hmem : k ∈ ops.map Prod.fst) :
    ∃ e, ibt_search (build ops) k = SearchResult.found e ∧ e.key = k := by
  have hne : ops ≠ [] := by
    intro h0; rw [h0] at hmem; simp at hmem
  obtain ⟨e, h1, _, h3, _⟩ := build_search ops hk hne k (keys32_of_mem hk hmem)
  refine ⟨e, h1, ?_⟩
  have hadj := h3 k ((build_keys ops hk k).mpr hmem)
  rcases Nat.le_total k e.key with h | h
  · exact (hadj.1 (le_refl _) h).symm
  · exact (hadj.2 h (le_refl _)).symm

theorem search_exact_match_witness :
    keys32 [(10, 100), (12, 200), (11, 300)] ∧
    11 ∈ [(10, 100), (12, 200), (11, 300)].map Prod.fst ∧
    ∃ e, ibt_search (build [(10, 100), (12, 200), (11, 300)]) 11 = SearchResult.found e ∧
      e.key = 11 :=
  ⟨by decide, by decide, search_exact_match _ (by decide) 11 (by decide)⟩

/-- C2, order invariant: after any sequence of `ibt_insert` calls on an empty
trie, the keys of the entries visited by `show_tree` (left subtree, own entry,
right subtree) are strictly ascending. -/
theorem show_tree_strictly_ascending (ops : List (Nat × Nat)) (hk : keys32 ops) :
    ((show_tree (build ops).root).map Entry.key).Pairwise (· < ·) :=
  (build_inv ops hk).root_inv.sorted

theorem show_tree_strictly_ascending_witness :
    keys32 [(12, 1), (4000000000, 2), (10, 3), (11, 4), (12, 5)] ∧
    ((show_tree (build [(12, 1), (4000000000, 2), (10, 3), (11, 4), (12, 5)]).root).map
      Entry.key).Pairwise (· < ·) :=
  ⟨by decide, show_tree_strictly_ascending _ (by decide)⟩

/-- C3, nearest in bit-prefix terms: on a non-empty trie built by insertions,
`ibt_search` of any 32-bit key `q` returns a stored entry whose key shares with
`q` a most-significant-bit prefix at least as long as every stored key does. -/
theorem search_nearest_prefix (ops : List (Nat × Nat)) (hk : keys32 ops) (hne : ops ≠ [])
    (q : Nat) (hq : q < 2 ^ 32) :
    ∃ e, ibt_search (build ops) q = SearchResult.found e ∧
      e ∈ show_tree (build ops).root ∧
      ∀ s ∈ keys_of (build ops).root,
        common_prefix_len q s ≤ common_prefix_len q e.key := by
  obtain ⟨e, h1, h2, _, h4⟩ := build_search ops hk hne q hq
  exact ⟨e, h1, h2, h4⟩

theorem search_nearest_prefix_witness :
    keys32 [(10, 100), (12, 200), (3000000000, 300)] ∧
    [(10, 100), (12, 200), (3000000000, 300)] ≠ [] ∧ 9 < 2 ^ 32 ∧
    ∃ e, ibt_search (build [(10, 100), (12, 200), (3000000000, 300)]) 9 =
        SearchResult.found e ∧
      e ∈ show_tree (build [(10, 100), (12, 200), (3000000000, 300)]).root ∧
      ∀ s ∈ keys_of (build [(10, 100), (12, 200), (3000000000, 300)]).root,
        common_prefix_len 9 s ≤ common_prefix_len 9 e.key :=
  ⟨by decide, by decide, by decide, search_nearest_prefix _ (by decide) (by decide) 9 (by decide)⟩

/-- C4, range resolution: on a trie built by insertions, for stored keys `a < b`
with no stored key strictly between them, `ibt_search` of any `q` with
`a ≤ q ≤ b` returns the stored entry with key `a` or the one with key `b`. -/
theorem search_range_resolution (ops : List (Nat × Nat)) (hk : keys32 ops) (a b : Nat)
    (ha : a ∈ keys_of (build ops).root) (hb : b ∈ keys_of (build ops).root) (_hab : a < b)
    (hgap : ∀ s ∈ keys_of (build ops).root, ¬ (a < s ∧ s < b))
    (q : Nat) (haq : a ≤ q) (hqb : q ≤ b) :
    ∃ e, ibt_search (build ops) q = SearchResult.found e ∧
      e ∈ show_tree (build ops).root ∧ (e.key = a ∨ e.key = b) := by
  have hb32 : b < 2 ^ 32 := keys32_of_mem hk ((build_keys ops hk b).mp hb)
  have hne : ops ≠ [] := by
    intro h0; rw [h0] at hb; simp [build, insert_all, ibt_create] at hb
  obtain ⟨e, h1, h2, h3, _⟩ := build_search ops hk hne q (by omega)
  refine ⟨e, h1, h2, ?_⟩
  have hgap' := hgap e.key (mem_keys_of_mem h2)
  have hadj_a := h3 a ha
  have hadj_b := h3 b hb
  rcases Nat.le_total q e.key with h | h
  · by_cases hbe : b ≤ e.key
    · exact Or.inr (hadj_b.1 hqb hbe).symm
    · left; omega
  · by_cases hea : e.key ≤ a
    · exact Or.inl (hadj_a.2 hea haq).symm
    · right; omega

theorem search_range_resolution_witness :
    keys32 [(5, 1), (100, 2), (200, 3), (4000000000, 4)] ∧
    100 ∈ keys_of (build [(5, 1), (100, 2), (200, 3), (4000000000, 4)]).root ∧
    200 ∈ keys_of (build [(5, 1), (100, 2), (200, 3), (4000000000, 4)]).root ∧
    ∃ e, ibt_search (build [(5, 1), (100, 2), (200, 3), (4000000000, 4)]) 150 =
        SearchResult.found e ∧
      e ∈ show_tree (build [(5, 1), (100, 2), (200, 3), (4000000000, 4)]).root ∧
      (e.key = 100 ∨ e.key = 200) :=
  ⟨by decide, by decide, by decide,
    search_range_resolution _ (by decide) 100 200 (by decide) (by decide) (by decide)
      (by decide) 150 (by decide) (by decide)⟩

/-- C5, duplicate insertion: with the keys 0 and 1 stored, the entry of key 0
sits in the node reached by the last step of the loop; inserting key 0 again
leaves the tree, `node_count` and `height` unchanged, but the loop runs out
without its duplicate test and `ibt_size` goes from 2 to 3. -/
theorem duplicate_insert_changes_size :
    0 ∈ keys_of (build [(0, 7), (1, 8)]).root ∧
    ibt_size (build [(0, 7), (1, 8)]) = 2 ∧
    ibt_insert_exit (build [(0, 7), (1, 8)]) 0 9 = some InsertExit.fellThrough ∧
    ibt_size (ibt_insert (build [(0, 7), (1, 8)]) 0 9) = 3 ∧
    (ibt_insert (build [(0, 7), (1, 8)]) 0 9).root = (build [(0, 7), (1, 8)]).root ∧
    ibt_node_count (ibt_insert (build [(0, 7), (1, 8)]) 0 9) =
      ibt_node_count (build [(0, 7), (1, 8)]) ∧
    ibt_height (ibt_insert (build [(0, 7), (1, 8)]) 0 9) =
      ibt_height (build [(0, 7), (1, 8)]) := by
  decide

/-- C6, size and stored entries: after inserting the keys 0, 1 and 0 again,
`ibt_size` is 3 while the sequence has 2 distinct keys and `show_tree` visits
2 entries. -/
theorem size_exceeds_stored_entries :
    ibt_size (build [(0, 7), (1, 8), (0, 9)]) = 3 ∧
    ([(0, 7), (1, 8), (0, 9)].map Prod.fst).dedup.length = 2 ∧
    (show_tree (build [(0, 7), (1, 8), (0, 9)]).root).length = 2 := by
  decide

/-- C7, first insert wins: after any sequence of `ibt_insert` calls on an empty
trie, the entries visited by `show_tree` are strictly ascending by key, and
`(k, v)` is visited exactly when `v` is the value of the first insertion of
`k` in the sequence; so there is one entry per distinct key of the sequence. -/
theorem show_tree_first_insert_wins (ops : List (Nat × Nat)) (hk : keys32 ops) :
    ((show_tree (build ops).root).map Entry.key).Pairwise (· < ·) ∧
    (∀ k v : Nat, { key := k, v := v } ∈ show_tree (build ops).root ↔
      ops.lookup k = some v) ∧
    (show_tree (build ops).root).length = (ops.map Prod.fst).dedup.length := by
  have hsorted := (build_inv ops hk).root_inv.sorted
  refine ⟨hsorted, fun k v => build_mem ops hk ⟨k, v⟩, ?_⟩
  have hnodup : (keys_of (build ops).root).Nodup :=
    hsorted.imp (fun h => Nat.ne_of_lt h)
  have hperm : (keys_of (build ops).root).Perm (ops.map Prod.fst).dedup := by
    rw [List.perm_ext_iff_of_nodup hnodup (List.nodup_dedup _)]
    intro a
    rw [List.mem_dedup, build_keys ops hk]
  have := hperm.length_eq
  simpa [keys_of] using this

theorem show_tree_first_insert_wins_witness :
    keys32 [(12, 1), (4000000000, 2), (10, 3), (12, 4), (10, 5)] ∧
    ((show_tree (build [(12, 1), (4000000000, 2), (10, 3), (12, 4), (10, 5)]).root).map
      Entry.key).Pairwise (· < ·) ∧
    (∀ k v : Nat,
      { key := k, v := v } ∈
          show_tree (build [(12, 1), (4000000000, 2), (10, 3), (12, 4), (10, 5)]).root ↔
        [(12, 1), (4000000000, 2), (10, 3), (12, 4), (10, 5)].lookup k = some v) ∧
    (show_tree (build [(12, 1), (4000000000, 2), (10, 3), (12, 4), (10, 5)]).root).length =
      ([(12, 1), (4000000000, 2), (10, 3), (12, 4), (10, 5)].map Prod.fst).dedup.length :=
  ⟨by decide, show_tree_first_insert_wins _ (by decide)⟩

/-- C8, search on an empty trie: on the trie of `ibt_create`, whose root is
null, `ibt_search` reads `current_node->data` through the null root for every
key; it does not return the not-found result. -/
theorem search_empty_derefs_null (key : Nat) :
    ibt_create.root = Node.null ∧
    ibt_search ibt_create key = SearchResult.nullDeref ∧
    ibt_search ibt_create key ≠ SearchResult.notFound := by
  refine ⟨rfl, rfl, ?_⟩
  intro h
  exact SearchResult.noConfusion (show SearchResult.nullDeref = SearchResult.notFound from h)

/-- C9, counterexample: after inserting the keys 0 and 1, which differ in
their last bit only, `ibt_height` is 33, not at most 32. -/
theorem height_exceeds_32 :
    ibt_height (build [(0, 7), (1, 8)]) = 33 ∧ ¬ ibt_height (build [(0, 7), (1, 8)]) ≤ 32 := by
  decide

/-- C9, amended, bounded depth: after any sequence of `ibt_insert` calls on an
empty trie, `ibt_height` is at most 33. -/
theorem height_le_33 (ops : List (Nat × Nat)) (hk : keys32 ops) :
    ibt_height (build ops) ≤ 33 :=
  (build_inv ops hk).height_le

theorem height_le_33_witness :
    keys32 [(0, 7), (1, 8)] ∧ ibt_height (build [(0, 7), (1, 8)]) ≤ 33 :=
  ⟨by decide, height_le_33 _ (by decide)⟩

/-- C10, counterexample: after inserting the keys `0x00000000` and `0xFFFFFFFF`
in that order, it is not the case that `ibt_height = 1`, `ibt_node_count = 0`
and `ibt_size = 2`. -/
theorem two_extreme_keys_not_flat :
    ¬ (ibt_height (build [(0x00000000, 1), (0xFFFFFFFF, 2)]) = 1 ∧
      ibt_node_count (build [(0x00000000, 1), (0xFFFFFFFF, 2)]) = 0 ∧
      ibt_size (build [(0x00000000, 1), (0xFFFFFFFF, 2)]) = 2) := by
  decide

/-- C10, amended: after inserting the keys `0x00000000` and `0xFFFFFFFF` in that
order, with any values, `ibt_height = 2`, `ibt_node_count = 1` and
`ibt_size = 2`: the second insertion turns the root leaf into a branch point
whose two children are leaves of height 2. -/
theorem two_extreme_keys_counters (v1 v2 : Nat) :
    ibt_height (build [(0x00000000, v1), (0xFFFFFFFF, v2)]) = 2 ∧
    ibt_node_count (build [(0x00000000, v1), (0xFFFFFFFF, v2)]) = 1 ∧
    ibt_size (build [(0x00000000, v1), (0xFFFFFFFF, v2)]) = 2 ∧
    (build [(0x00000000, v1), (0xFFFFFFFF, v2)]).root =
      Node.mk (new_leaf (create_entry 0x00000000 v1) 2) none
        (new_leaf (create_entry 0xFFFFFFFF v2) 2) 1 := by
  have hb0 : bitAt 0 31 = 0 := by decide
  have hb1 : bitAt 4294967295 31 = 1 := by decide
  have hpd : push_down 31 Node.null (some (create_entry 0 v1)) Node.null 1 =
      { left := new_leaf (create_entry 0 v1) 2, right := Node.null, splits := 1 } := by
    simp [push_down, create_entry, hb0]
  have hloop := insert_loop_right_new 31 Node.null Node.null (some (create_entry 0 v1)) 1
    4294967295 v2 (holds_key_some_ne _ _ (by simp [create_entry])) hb1 (by rw [hpd])
  rw [hpd] at hloop
  have hwalk : insert_walk (new_leaf (create_entry 0 v1) 1) 4294967295 v2 =
      LoopResult.mk (Node.mk (new_leaf (create_entry 0 v1) 2) none
        (new_leaf (create_entry 4294967295 v2) 2) 1) 1 (InsertExit.created 2) := hloop
  have hfirst := ibt_insert_root_null ibt_create 0 v1 rfl
  have hne : (ibt_insert ibt_create 0 v1).root ≠ Node.null := by
    rw [hfirst]; exact new_leaf_ne_null _ _
  obtain ⟨e1, e2⟩ := ibt_insert_root_of_ne _ 4294967295 v2 hne
  have e3 := ibt_insert_height_of_ne _ 4294967295 v2 hne
  have e4 := ibt_insert_size_of_ne _ 4294967295 v2 hne
  rw [hfirst] at e1 e2 e3 e4
  simp only [hwalk] at e1 e2 e3 e4
  rw [build_pair, hfirst]
  refine ⟨?_, ?_, ?_, e1⟩
  · rw [ibt_height, e3]; rfl
  · rw [ibt_node_count, e2]; rfl
  · rw [ibt_size, e4]; rfl

/-! ## Node shape, paths and exits -/

theorem Inv.shape_ok {n p : Nat} {t : Node} (h : Inv n p t) : shape_ok t = true := by
  induction h with
  | null n p => rfl
  | leaf n p e h _ _ => rfl
  | branch n p l r h hc _ _ _ ihl ihr =>
      have hnn : (l.is_null && r.is_null) = false := by
        rcases hc with hc | hc
        · cases l with
          | null => exact absurd rfl hc
          | mk _ _ _ _ => rfl
        · cases r with
          | null => exact absurd rfl hc
          | mk _ _ _ _ => simp [Node.is_null]
      simp [IpTrie.shape_ok, hnn, ihl, ihr]

theorem descend_nil (t : Node) : descend t [] = t := by
  cases t <;> rfl

theorem descend_null (path : List Bool) : descend Node.null path = Node.null := by
  cases path <;> rfl

/-- Below a well-formed subtree, every entry of the node reached by a path has
the prefix of the subtree followed by the bits of the path. -/
theorem Inv.descend_bits (path : List Bool) : ∀ {n p : Nat} {t : Node}, Inv n p t →
    ∀ e ∈ show_tree (descend t path), e.key / 2 ^ n = p ∧
      ∀ (j : Nat) (b : Bool), path[j]? = some b → bitAt e.key (n - 1 - j) = b.toNat := by
  induction path with
  | nil =>
      intro n p t hinv e he
      rw [descend_nil] at he
      refine ⟨hinv.key_prefix e.key (mem_keys_of_mem he), ?_⟩
      intro j b hj
      simp at hj
  | cons b bs ih =>
      intro n p t hinv e he
      cases hinv with
      | null => simp [descend] at he
      | leaf _ _ e0 h hk hh =>
          cases b <;> simp [descend, descend_null] at he
      | branch m _ l r h hc hl hr hh =>
          have hsub : ∃ q : Nat, q < 2 ∧ q = b.toNat ∧ e.key / 2 ^ m = 2 * p + q ∧
              ∀ (j : Nat) (c : Bool), bs[j]? = some c →
                bitAt e.key (m - 1 - j) = c.toNat := by
            cases b with
            | false =>
                have := ih hl e (by simpa [descend] using he)
                exact ⟨0, by omega, rfl, by simpa using this.1, this.2⟩
            | true =>
                have := ih hr e (by simpa [descend] using he)
                exact ⟨1, by omega, rfl, this.1, this.2⟩
          obtain ⟨q, hq2, hqb, hkey, hrest⟩ := hsub
          refine ⟨prefix_of_step e.key m p q hkey hq2, ?_⟩
          intro j c hj
          cases j with
          | zero =>
              have hc0 : c = b := by simpa using hj.symm
              rw [hc0, ← hqb, bitAt_eq]
              simp only [Nat.add_sub_cancel, Nat.sub_zero]
              rw [hkey]; omega
          | succ j =>
              have := hrest j c (by simpa using hj)
              have hidx : m + 1 - 1 - (j + 1) = m - 1 - j := by omega
              rw [hidx]; exact this

/-- The search result on a trie that stores exactly the two keys `a < b`
with nothing between them: `a` for a query up to `a`, `b` for one from `b`. -/
theorem search_two_keys (ops : List (Nat × Nat)) (hk : keys32 ops) (a b va vb : Nat)
    (hab : a < b) (hkeys : ∀ k, k ∈ ops.map Prod.fst ↔ k = a ∨ k = b)
    (hva : ops.lookup a = some va) (hvb : ops.lookup b = some vb) (q : Nat)
    (hq : q < 2 ^ 32) :
    (q ≤ a → ibt_search (build ops) q = SearchResult.found { key := a, v := va }) ∧
    (b ≤ q → ibt_search (build ops) q = SearchResult.found { key := b, v := vb }) := by
  have hne : ops ≠ [] := by
    intro h0
    have := (hkeys a).mpr (Or.inl rfl)
    rw [h0] at this; simp at this
  obtain ⟨e, h1, h2, h3, _⟩ := build_search ops hk hne q hq
  have hlook := (build_mem ops hk e).mp h2
  have hek : e.key = a ∨ e.key = b :=
    (hkeys e.key).mp ((build_keys ops hk e.key).mp (mem_keys_of_mem h2))
  have hadj_a := h3 a ((build_keys ops hk a).mpr ((hkeys a).mpr (Or.inl rfl)))
  have hadj_b := h3 b ((build_keys ops hk b).mpr ((hkeys b).mpr (Or.inr rfl)))
  constructor
  · intro hqa
    have hea : e.key = a := by
      rcases hek with h | h
      · exact h
      · exact (hadj_a.1 hqa (by omega)).symm
    have hev : e.v = va := by
      rw [hea, hva] at hlook
      exact (Option.some.inj hlook).symm
    rw [h1]
    cases e
    simp only [SearchResult.found.injEq, Entry.mk.injEq]
    exact ⟨hea, hev⟩
  · intro hbq
    have heb : e.key = b := by
      rcases hek with h | h
      · exact (hadj_b.2 (by omega) hbq).symm
      · exact h
    have hev : e.v = vb := by
      rw [heb, hvb] at hlook
      exact (Option.some.inj hlook).symm
    rw [h1]
    cases e
    simp only [SearchResult.found.injEq, Entry.mk.injEq]
    exact ⟨heb, hev⟩

/-! ## The claims, continued -/

/-- C11, fallback determinism: on the trie built by inserting exactly the keys
`2m` and `2m+1`, in either order, `ibt_search` of a 32-bit query `q` returns
the entry of `2m` when `q ≤ 2m` and the entry of `2m+1` when `q ≥ 2m+1`. -/
theorem fallback_two_adjacent_keys (m v0 v1 : Nat) (hm : 2 * m + 1 < 2 ^ 32)
    (ops : List (Nat × Nat))
    (hops : ops = [(2 * m, v0), (2 * m + 1, v1)] ∨ ops = [(2 * m + 1, v1), (2 * m, v0)])
    (q : Nat) (hq : q < 2 ^ 32) :
    (q ≤ 2 * m →
      ibt_search (build ops) q = SearchResult.found { key := 2 * m, v := v0 }) ∧
    (2 * m + 1 ≤ q →
      ibt_search (build ops) q = SearchResult.found { key := 2 * m + 1, v := v1 }) := by
  have hne1 : (2 * m == 2 * m + 1) = false := by
    rw [beq_eq_false_iff_ne]; omega
  have hne2 : (2 * m + 1 == 2 * m) = false := by
    rw [beq_eq_false_iff_ne]; omega
  apply search_two_keys ops _ (2 * m) (2 * m + 1) v0 v1 (by omega) _ _ _ q hq
  · rcases hops with h | h <;> subst h <;> intro p hp <;> simp at hp <;>
      rcases hp with hp | hp <;> subst hp <;> simp <;> omega
  · intro k
    rcases hops with h | h <;> subst h <;> simp [or_comm]
  · rcases hops with h | h <;> subst h <;> simp [List.lookup_cons, hne1]
  · rcases hops with h | h <;> subst h <;> simp [List.lookup_cons, hne2]

theorem fallback_two_adjacent_keys_witness :
    2 * 5 + 1 < 2 ^ 32 ∧ 3 < 2 ^ 32 ∧
    ((3 ≤ 2 * 5 →
      ibt_search (build [(2 * 5 + 1, 8), (2 * 5, 7)]) 3 =
        SearchResult.found { key := 2 * 5, v := 7 }) ∧
    (2 * 5 + 1 ≤ 3 →
      ibt_search (build [(2 * 5 + 1, 8), (2 * 5, 7)]) 3 =
        SearchResult.found { key := 2 * 5 + 1, v := 8 })) :=
  ⟨by decide, by decide,
    fallback_two_adjacent_keys 5 7 8 (by decide) _ (Or.inr rfl) 3 (by decide)⟩

/-- C13, node shape invariant: after any sequence of `ibt_insert` calls on an
empty trie, every node of the tree holds an entry and no child, or no entry
and at least one child. -/
theorem node_shape_invariant (ops : List (Nat × Nat)) (hk : keys32 ops) :
    shape_ok (build ops).root = true :=
  (build_inv ops hk).root_inv.shape_ok

theorem node_shape_invariant_witness :
    keys32 [(10, 1), (12, 2), (11, 3), (12, 4)] ∧
    shape_ok (build [(10, 1), (12, 2), (11, 3), (12, 4)]).root = true :=
  ⟨by decide, node_shape_invariant _ (by decide)⟩

/-- C14, search never fails on a non-empty trie: on a trie built by at least
one `ibt_insert` call, `ibt_search` of a 32-bit key returns an entry stored in
the trie; it neither reads through a null child nor reaches `return NULL`. -/
theorem search_never_fails (ops : List (Nat × Nat)) (hk : keys32 ops) (hne : ops ≠ [])
    (q : Nat) (hq : q < 2 ^ 32) :
    (∃ e, ibt_search (build ops) q = SearchResult.found e ∧
      e ∈ show_tree (build ops).root) ∧
    ibt_search (build ops) q ≠ SearchResult.nullDeref ∧
    ibt_search (build ops) q ≠ SearchResult.notFound := by
  obtain ⟨e, h1, h2, _, _⟩ := build_search ops hk hne q hq
  refine ⟨⟨e, h1, h2⟩, ?_, ?_⟩ <;> rw [h1] <;> exact fun h => SearchResult.noConfusion h

theorem search_never_fails_witness :
    keys32 [(10, 1), (12, 2)] ∧ [(10, 1), (12, 2)] ≠ [] ∧ 4000000000 < 2 ^ 32 ∧
    (∃ e, ibt_search (build [(10, 1), (12, 2)]) 4000000000 = SearchResult.found e ∧
      e ∈ show_tree (build [(10, 1), (12, 2)]).root) ∧
    ibt_search (build [(10, 1), (12, 2)]) 4000000000 ≠ SearchResult.nullDeref ∧
    ibt_search (build [(10, 1), (12, 2)]) 4000000000 ≠ SearchResult.notFound :=
  ⟨by decide, by decide, by decide,
    search_never_fails _ (by decide) (by decide) 4000000000 (by decide)⟩

/-- C15, loop exhaustion: with the keys 0 and 1 stored, a further `ibt_insert`
of key 0 leaves its loop by running out of iterations, not through the
duplicate test and not through the creation of a leaf, and `ibt_size` is not
decremented. -/
theorem insert_exhausts_loop :
    ibt_insert_exit (build [(0, 7), (1, 8)]) 0 9 = some InsertExit.fellThrough ∧
    ibt_insert_exit (build [(0, 7), (1, 8)]) 0 9 ≠ some InsertExit.duplicate ∧
    ibt_size (ibt_insert (build [(0, 7), (1, 8)]) 0 9) =
      ibt_size (build [(0, 7), (1, 8)]) + 1 := by
  decide

/-- C16, path-prefix invariant: after any sequence of `ibt_insert` calls on an
empty trie, for the node reached from the root by the child edges `path`
(`false` = left = 0, `true` = right = 1) and every entry `e` stored in that
node or below it, bit `31 - j` of the key of `e` is the `j`-th edge of the path. -/
theorem path_prefix_invariant (ops : List (Nat × Nat)) (hk : keys32 ops) (path : List Bool)
    (e : Entry) (he : e ∈ show_tree (descend (build ops).root path)) (j : Nat) (b : Bool)
    (hj : path[j]? = some b) :
    bitAt e.key (31 - j) = b.toNat :=
  ((build_inv ops hk).root_inv.descend_bits path e he).2 j b hj

theorem path_prefix_invariant_witness :
    keys32 [(10, 1), (4294967295, 2), (12, 3)] ∧
    ({ key := 4294967295, v := 2 } : Entry) ∈
      show_tree (descend (build [(10, 1), (4294967295, 2), (12, 3)]).root [true]) ∧
    [true][0]? = some true ∧
    bitAt ({ key := 4294967295, v := 2 } : Entry).key (31 - 0) = true.toNat :=
  ⟨by decide, by decide, by decide,
    path_prefix_invariant [(10, 1), (4294967295, 2), (12, 3)] (by decide) [true]
      { key := 4294967295, v := 2 } (by decide) 0 true (by decide)⟩

/-! ## Splitting a leaf, and the counters -/

/-- On a leaf that holds another key, the loop does what it does on the split
leaf, with one more increment of `node_count`. -/
theorem insert_loop_split (i : Nat) (e : Entry) (h k v : Nat) (hne : e.key ≠ k) :
    ibt_insert_loop (i + 1) (Node.mk Node.null (some e) Node.null h) k v =
      { node := (ibt_insert_loop (i + 1) (split_leaf i e h) k v).node,
        splits := 1 + (ibt_insert_loop (i + 1) (split_leaf i e h) k v).splits,
        exit := (ibt_insert_loop (i + 1) (split_leaf i e h) k v).exit } := by
  rcases bitAt_cases e.key i with hbe | hbe <;> rcases bitAt_cases k i with hbk | hbk <;>
    simp [split_leaf, ibt_insert_loop, holds_key, push_down, hbe, hbk, new_leaf, hne]

theorem show_tree_split_leaf (i : Nat) (e : Entry) (h : Nat) :
    show_tree (split_leaf i e h) = [e] := by
  rcases bitAt_cases e.key i with hbe | hbe <;> simp [split_leaf, push_down, hbe]

theorem keys_of_split_leaf (i : Nat) (e : Entry) (h : Nat) :
    keys_of (split_leaf i e h) = [e.key] := by
  simp [keys_of, show_tree_split_leaf]

theorem Inv.split_leaf {i p : Nat} {e : Entry} {h : Nat}
    (hinv : Inv (i + 1) p (Node.mk Node.null (some e) Node.null h)) :
    Inv (i + 1) p (split_leaf i e h) := by
  cases hinv with
  | leaf _ _ _ _ hk hh =>
      have he := prefix_step e.key i p hk
      rcases bitAt_cases e.key i with hbe | hbe
      · have : IpTrie.split_leaf i e h = Node.mk (new_leaf e (h + 1)) none Node.null h := by
          simp [IpTrie.split_leaf, push_down, hbe]
        rw [this]
        exact Inv.branch i p _ _ h (Or.inl (new_leaf_ne_null _ _))
          (Inv.of_new_leaf i _ e (h + 1) (by rw [he, hbe]; rfl) (by omega)) (Inv.null _ _) hh
      · have : IpTrie.split_leaf i e h = Node.mk Node.null none (new_leaf e (h + 1)) h := by
          simp [IpTrie.split_leaf, push_down, hbe]
        rw [this]
        exact Inv.branch i p _ _ h (Or.inr (new_leaf_ne_null _ _)) (Inv.null _ _)
          (Inv.of_new_leaf i _ e (h + 1) (by rw [he, hbe]) (by omega)) hh

/-- One iteration of the loop at a node without entry, key bit 1. -/
theorem insert_loop_branch_one (i : Nat) (l r : Node) (h k v : Nat) (hb : bitAt k i = 1) :
    ibt_insert_loop (i + 1) (Node.mk l none r h) k v =
      if r = Node.null then
        LoopResult.mk (Node.mk l none (new_leaf (create_entry k v) (h + 1)) h) 0
          (InsertExit.created (h + 1))
      else
        LoopResult.mk (Node.mk l none (ibt_insert_loop i r k v).node h)
          (ibt_insert_loop i r k v).splits (ibt_insert_loop i r k v).exit := by
  have hpd : push_down i l none r h = { left := l, right := r, splits := 0 } := rfl
  by_cases hr : r = Node.null
  · rw [insert_loop_right_new i l r none h k v (holds_key_none k) hb (by rw [hpd]; exact hr)]
    rw [hpd]; simp [hr]
  · rw [insert_loop_right_descend i l r none h k v (holds_key_none k) hb
      (by rw [hpd]; exact hr)]
    simp [hr, hpd]

/-- One iteration of the loop at a node without entry, key bit 0. -/
theorem insert_loop_branch_zero (i : Nat) (l r : Node) (h k v : Nat) (hb : bitAt k i = 0) :
    ibt_insert_loop (i + 1) (Node.mk l none r h) k v =
      if l = Node.null then
        LoopResult.mk (Node.mk (new_leaf (create_entry k v) (h + 1)) none r h) 0
          (InsertExit.created (h + 1))
      else
        LoopResult.mk (Node.mk (ibt_insert_loop i l k v).node none r h)
          (ibt_insert_loop i l k v).splits (ibt_insert_loop i l k v).exit := by
  have hpd : push_down i l none r h = { left := l, right := r, splits := 0 } := rfl
  by_cases hl : l = Node.null
  · rw [insert_loop_left_new i l r none h k v (holds_key_none k) hb (by rw [hpd]; exact hl)]
    rw [hpd]; simp [hl]
  · rw [insert_loop_left_descend i l r none h k v (holds_key_none k) hb
      (by rw [hpd]; exact hl)]
    simp [hl, hpd]

@[simp] theorem branch_count_null : branch_count Node.null = 0 := rfl

@[simp] theorem branch_count_branch (l r : Node) (h : Nat) :
    branch_count (Node.mk l none r h) = 1 + branch_count l + branch_count r := rfl

@[simp] theorem branch_count_entry (l r : Node) (e : Entry) (h : Nat) :
    branch_count (Node.mk l (some e) r h) = 0 + branch_count l + branch_count r := rfl

@[simp] theorem max_height_null : max_height Node.null = 0 := rfl

@[simp] theorem max_height_mk (l r : Node) (d : Option Entry) (h : Nat) :
    max_height (Node.mk l d r h) = max h (max (max_height l) (max_height r)) := rfl

theorem branch_count_split_leaf (i : Nat) (e : Entry) (h : Nat) :
    branch_count (split_leaf i e h) = 1 := by
  rcases bitAt_cases e.key i with hbe | hbe <;> simp [split_leaf, push_down, hbe, new_leaf]

theorem max_height_split_leaf (i : Nat) (e : Entry) (h : Nat) :
    max_height (split_leaf i e h) = h + 1 := by
  rcases bitAt_cases e.key i with hbe | hbe <;> simp [split_leaf, push_down, hbe, new_leaf]

theorem split_leaf_ne_null (i : Nat) (e : Entry) (h : Nat) : split_leaf i e h ≠ Node.null := by
  simp [split_leaf]

/-- The counters of the loop for a key that is not stored: the exit carries
the height of the new leaf, which lies below the current node; the number of
branch points grows by the number of splits; the largest height becomes the
larger of the old one and that of the new leaf. -/
theorem insert_loop_new_counts (n : Nat) : ∀ (cur : Node) (p k v : Nat),
    Inv n p cur → cur ≠ Node.null → k / 2 ^ n = p → k ∉ keys_of cur →
    ∃ nh, (ibt_insert_loop n cur k v).exit = InsertExit.created nh ∧ 34 ≤ nh + n ∧
      branch_count (ibt_insert_loop n cur k v).node =
        branch_count cur + (ibt_insert_loop n cur k v).splits ∧
      max_height (ibt_insert_loop n cur k v).node = max (max_height cur) nh := by
  induction n with
  | zero =>
      intro cur p k v hinv hne hp hnm
      obtain ⟨_, _, _, nh, h4, _⟩ := insert_loop_new 0 cur p k v hinv hne hp hnm
      rw [insert_loop_zero] at h4
      exact InsertExit.noConfusion h4
  | succ i ih =>
      have hbranch : ∀ (l r : Node) (h p k v : Nat), Inv (i + 1) p (Node.mk l none r h) →
          k / 2 ^ (i + 1) = p → k ∉ keys_of (Node.mk l none r h) →
          ∃ nh, (ibt_insert_loop (i + 1) (Node.mk l none r h) k v).exit =
              InsertExit.created nh ∧ 34 ≤ nh + (i + 1) ∧
            branch_count (ibt_insert_loop (i + 1) (Node.mk l none r h) k v).node =
              branch_count (Node.mk l none r h) +
                (ibt_insert_loop (i + 1) (Node.mk l none r h) k v).splits ∧
            max_height (ibt_insert_loop (i + 1) (Node.mk l none r h) k v).node =
              max (max_height (Node.mk l none r h)) nh := by
        intro l r h p k v hinv hp hnm
        cases hinv with
        | branch _ _ _ _ _ hc hl hr hh =>
            simp only [keys_of_mk, Option.toList, List.map_nil, List.nil_append,
              List.mem_append, not_or] at hnm
            have hi := prefix_step k i p hp
            rcases bitAt_cases k i with hb | hb
            · rw [hb, Nat.add_zero] at hi
              rw [insert_loop_branch_zero i l r h k v hb]
              by_cases hl0 : l = Node.null
              · refine ⟨h + 1, by simp [hl0], by omega, ?_, ?_⟩
                · simp [hl0, new_leaf]
                · simp [hl0, new_leaf]; omega
              · obtain ⟨nh, e1, e2, e3, e4⟩ := ih l (2 * p) k v hl hl0 hi hnm.1
                refine ⟨nh, by simp [hl0, e1], by omega, ?_, ?_⟩
                · simp [hl0, e3]; omega
                · simp [hl0, e4]; omega
            · rw [hb] at hi
              rw [insert_loop_branch_one i l r h k v hb]
              by_cases hr0 : r = Node.null
              · refine ⟨h + 1, by simp [hr0], by omega, ?_, ?_⟩
                · simp [hr0, new_leaf]
                · simp [hr0, new_leaf]; omega
              · obtain ⟨nh, e1, e2, e3, e4⟩ := ih r (2 * p + 1) k v hr hr0 hi hnm.2
                refine ⟨nh, by simp [hr0, e1], by omega, ?_, ?_⟩
                · simp [hr0, e3]; omega
                · simp [hr0, e4]; omega
      intro cur p k v hinv hne hp hnm
      cases hinv with
      | null => exact absurd rfl hne
      | branch _ _ l r h hc hl hr hh =>
          exact hbranch l r h p k v (Inv.branch i p l r h hc hl hr hh) hp hnm
      | leaf _ _ e h hk hh =>
          have hkey : e.key ≠ k := by
            intro h0; apply hnm; simp [h0]
          have hsplit := Inv.split_leaf (Inv.leaf (i + 1) p e h hk hh)
          have hnm2 : k ∉ keys_of (Node.mk
              (push_down i Node.null (some e) Node.null h).left none
              (push_down i Node.null (some e) Node.null h).right h) := by
            have := keys_of_split_leaf i e h
            unfold split_leaf at this
            rw [this]; simpa using Ne.symm hkey
          obtain ⟨nh, e1, e2, e3, e4⟩ := hbranch _ _ h p k v hsplit hp hnm2
          rw [insert_loop_split i e h k v hkey]
          have c1 := branch_count_split_leaf i e h
          have c2 := max_height_split_leaf i e h
          unfold split_leaf at c1 c2 ⊢
          refine ⟨nh, e1, e2, ?_, ?_⟩
          · simp only [e3, c1]; simp
          · simp only [e4, c2]; simp; omega

theorem ibt_create_counters : TrieCounters ibt_create :=
  ⟨rfl, rfl⟩

theorem ibt_insert_counters (t : Trie) (k v : Nat) (hinv : TrieInv t) (hc : TrieCounters t)
    (hk : k < 2 ^ 32) : TrieCounters (ibt_insert t k v) := by
  by_cases hmem : k ∈ keys_of t.root
  · obtain ⟨h1, h2, h3⟩ := ibt_insert_stored t k v hinv.root_inv hmem
    exact ⟨by rw [h1, h2]; exact hc.node_count_eq, by rw [h1, h3]; exact hc.height_eq⟩
  · by_cases hnull : t.root = Node.null
    · rw [ibt_insert_root_null t k v hnull]
      have := hc.node_count_eq
      rw [hnull] at this
      exact ⟨by simp [this, new_leaf], by simp [new_leaf]⟩
    · obtain ⟨nh, e1, _, e3, e4⟩ :=
        insert_loop_new_counts 32 t.root 0 k v hinv.root_inv hnull (Nat.div_eq_of_lt hk) hmem
      obtain ⟨r1, r2⟩ := ibt_insert_root_of_ne t k v hnull
      have r3 := ibt_insert_height_of_ne t k v hnull
      simp only [insert_walk, BITSPERWORD] at r1 r2 r3
      rw [e1] at r3
      refine ⟨by rw [r1, r2, e3, hc.node_count_eq], ?_⟩
      rw [r1, r3, e4, ← hc.height_eq]
      simp only
      split <;> omega

theorem insert_all_counters (ops : List (Nat × Nat)) : ∀ (t : Trie), TrieInv t →
    TrieCounters t → keys32 ops → TrieCounters (insert_all t ops) := by
  induction ops with
  | nil => intro t _ hc _; exact hc
  | cons p rest ih =>
      intro t ht hc hk
      rw [keys32_cons] at hk
      exact ih (ibt_insert t p.1 p.2) (ibt_insert_inv t p.1 p.2 ht hk.1)
        (ibt_insert_counters t p.1 p.2 ht hc hk.1) hk.2

/-- The counters of a trie built by insertions of 32-bit keys count what the
tree holds. -/
theorem build_counters (ops : List (Nat × Nat)) (hk : keys32 ops) :
    TrieCounters (build ops) :=
  insert_all_counters ops ibt_create ibt_create_inv ibt_create_counters hk

/-- Every node holds an entry or is a branch point. -/
theorem node_total_eq (t : Node) :
    node_total t = branch_count t + (show_tree t).length := by
  induction t with
  | null => rfl
  | mk l d r h ihl ihr =>
      cases d with
      | none => simp [node_total, ihl, ihr]; omega
      | some e => simp [node_total, ihl, ihr]; omega

/-- C17, `node_count` counts branch points: after any sequence of `ibt_insert`
calls on an empty trie, `ibt_node_count` is the number of nodes that hold no
entry, and the number of nodes is `ibt_node_count` plus the number of stored
entries. -/
theorem node_count_counts_branch_points (ops : List (Nat × Nat)) (hk : keys32 ops) :
    ibt_node_count (build ops) = branch_count (build ops).root ∧
    node_total (build ops).root =
      ibt_node_count (build ops) + (show_tree (build ops).root).length := by
  have h := (build_counters ops hk).node_count_eq
  refine ⟨h, ?_⟩
  rw [ibt_node_count, h]
  exact node_total_eq _

theorem node_count_counts_branch_points_witness :
    keys32 [(10, 1), (12, 2), (11, 3), (12, 4)] ∧
    ibt_node_count (build [(10, 1), (12, 2), (11, 3), (12, 4)]) =
      branch_count (build [(10, 1), (12, 2), (11, 3), (12, 4)]).root ∧
    node_total (build [(10, 1), (12, 2), (11, 3), (12, 4)]).root =
      ibt_node_count (build [(10, 1), (12, 2), (11, 3), (12, 4)]) +
        (show_tree (build [(10, 1), (12, 2), (11, 3), (12, 4)]).root).length :=
  ⟨by decide, node_count_counts_branch_points _ (by decide)⟩

/-! ## The fallback of the search -/

theorem fallback_point_null (n key : Nat) : fallback_point n Node.null key = none := by
  cases n <;> rfl

theorem fallback_point_entry (n : Nat) (l r : Node) (e : Entry) (h key : Nat) :
    fallback_point n (Node.mk l (some e) r h) key = none := by
  cases n <;> rfl

theorem fallback_point_bit_one (i : Nat) (l r : Node) (h key : Nat) (hb : bitAt key i = 1) :
    fallback_point (i + 1) (Node.mk l none r h) key =
      if r = Node.null then some (i, Node.mk l none r h) else fallback_point i r key := by
  cases r <;> simp [fallback_point, hb]

theorem fallback_point_bit_zero (i : Nat) (l r : Node) (h key : Nat) (hb : bitAt key i = 0) :
    fallback_point (i + 1) (Node.mk l none r h) key =
      if l = Node.null then some (i, Node.mk l none r h) else fallback_point i l key := by
  cases l <;> simp [fallback_point, hb]

/-- From the node where the path is lost, the walk returns the first entry of
that node's traversal when the bit tested there is 0 and the last one when it
is 1. -/
theorem search_from_fallback_point {n p : Nat} {cur : Node} (hinv : Inv n p cur) (q : Nat)
    (hp : q / 2 ^ n = p) (i : Nat) (N : Node) (hN : fallback_point n cur q = some (i, N)) :
    (∃ p', Inv (i + 1) p' N) ∧
    ∃ e, ibt_search_loop n cur q false false = SearchResult.found e ∧
      ((bitAt q i = 0 ∧ ∃ rest, show_tree N = e :: rest) ∨
        (bitAt q i = 1 ∧ ∃ rest, show_tree N = rest ++ [e])) := by
  induction hinv with
  | null n p => rw [fallback_point_null] at hN; exact Option.noConfusion hN
  | leaf n p e h _ _ => rw [fallback_point_entry] at hN; exact Option.noConfusion hN
  | branch n p l r h hc hl hr hh ihl ihr =>
      have hi := prefix_step q n p hp
      rcases bitAt_cases q n with hb | hb
      · rw [hb, Nat.add_zero] at hi
        rw [fallback_point_bit_zero _ _ _ _ _ hb] at hN
        rw [search_loop_bit_zero _ _ _ _ _ hb]
        by_cases hl0 : l = Node.null
        · simp only [hl0, if_true, Option.some.injEq, Prod.mk.injEq] at hN ⊢
          obtain ⟨hi1, hi2⟩ := hN
          subst hi1; subst hi2
          have hr0 : r ≠ Node.null := by
            rcases hc with hc | hc
            · exact absurd hl0 hc
            · exact hc
          refine ⟨⟨p, ?_⟩, ?_⟩
          · rw [← hl0]; exact Inv.branch n p l r h hc hl hr hh
          · obtain ⟨e, rest, h1, h2⟩ := search_leftmost hr q false hr0
            exact ⟨e, h2, Or.inl ⟨hb, rest, by simp [h1]⟩⟩
        · simp only [hl0, if_false] at hN ⊢
          exact ihl hi hN
      · rw [hb] at hi
        rw [fallback_point_bit_one _ _ _ _ _ hb] at hN
        rw [search_loop_bit_one _ _ _ _ _ hb]
        by_cases hr0 : r = Node.null
        · simp only [hr0, if_true, Option.some.injEq, Prod.mk.injEq] at hN ⊢
          obtain ⟨hi1, hi2⟩ := hN
          subst hi1; subst hi2
          have hl0 : l ≠ Node.null := by
            rcases hc with hc | hc
            · exact hc
            · exact absurd hr0 hc
          refine ⟨⟨p, ?_⟩, ?_⟩
          · rw [← hr0]; exact Inv.branch n p l r h hc hl hr hh
          · obtain ⟨e, rest, h1, h2⟩ := search_rightmost hl q hl0
            exact ⟨e, h2, Or.inr ⟨hb, rest, by simp [h1]⟩⟩
        · simp only [hr0, if_false] at hN ⊢
          exact ihr hi hN

/-- The point where the path is lost depends only on the bits of the key from
the one tested there upwards. -/
theorem fallback_point_congr (n : Nat) : ∀ (cur : Node) (q i : Nat) (N : Node),
    fallback_point n cur q = some (i, N) →
    i < n ∧ ∀ q', q' / 2 ^ i = q / 2 ^ i → fallback_point n cur q' = some (i, N) := by
  induction n with
  | zero =>
      intro cur q i N hN
      cases cur with
      | null => exact Option.noConfusion hN
      | mk l d r h =>
          cases d with
          | none => exact Option.noConfusion hN
          | some e => exact Option.noConfusion hN
  | succ j ih =>
      intro cur q i N hN
      cases cur with
      | null => exact Option.noConfusion hN
      | mk l d r h =>
          cases d with
          | some e => exact Option.noConfusion hN
          | none =>
              have hbits : ∀ q', i ≤ j → q' / 2 ^ i = q / 2 ^ i → bitAt q' j = bitAt q j := by
                intro q' hij hq'
                rw [bitAt_eq, bitAt_eq, div_pow_of_le hij hq']
              rcases bitAt_cases q j with hb | hb
              · rw [fallback_point_bit_zero _ _ _ _ _ hb] at hN
                by_cases hl0 : l = Node.null
                · simp only [hl0, if_true, Option.some.injEq, Prod.mk.injEq] at hN
                  obtain ⟨hi1, hi2⟩ := hN
                  subst hi1
                  refine ⟨by omega, ?_⟩
                  intro q' hq'
                  rw [fallback_point_bit_zero _ _ _ _ _ (by rw [hbits q' (le_refl _) hq', hb]),
                    ← hi2]
                  simp [hl0]
                · simp only [hl0, if_false] at hN
                  obtain ⟨h1, h2⟩ := ih l q i N hN
                  refine ⟨by omega, ?_⟩
                  intro q' hq'
                  rw [fallback_point_bit_zero _ _ _ _ _ (by rw [hbits q' (by omega) hq', hb])]
                  simp only [hl0, if_false]
                  exact h2 q' hq'
              · rw [fallback_point_bit_one _ _ _ _ _ hb] at hN
                by_cases hr0 : r = Node.null
                · simp only [hr0, if_true, Option.some.injEq, Prod.mk.injEq] at hN
                  obtain ⟨hi1, hi2⟩ := hN
                  subst hi1
                  refine ⟨by omega, ?_⟩
                  intro q' hq'
                  rw [fallback_point_bit_one _ _ _ _ _ (by rw [hbits q' (le_refl _) hq', hb]),
                    ← hi2]
                  simp [hr0]
                · simp only [hr0, if_false] at hN
                  obtain ⟨h1, h2⟩ := ih r q i N hN
                  refine ⟨by omega, ?_⟩
                  intro q' hq'
                  rw [fallback_point_bit_one _ _ _ _ _ (by rw [hbits q' (by omega) hq', hb])]
                  simp only [hr0, if_false]
                  exact h2 q' hq'

/-- C19, fallback direction: on a trie built by insertions, when the walk of
`ibt_search` for a 32-bit query `q` reaches, without having met an entry, a
node `N` whose child for the bit `i` of `q` tested there is absent, the result
is a stored entry of `N`'s subtree with the smallest key of that subtree when
the bit is 0 and the largest when it is 1; the bits of `q` below `i` are not
consulted: every query that agrees with `q` from bit `i` upwards gets the same
result. -/
theorem fallback_direction (ops : List (Nat × Nat)) (hk : keys32 ops) (q : Nat)
    (hq : q < 2 ^ 32) (i : Nat) (N : Node)
    (hN : fallback_point 32 (build ops).root q = some (i, N)) :
    ∃ e, ibt_search (build ops) q = SearchResult.found e ∧ e ∈ show_tree N ∧
      (bitAt q i = 0 → ∀ s ∈ keys_of N, e.key ≤ s) ∧
      (bitAt q i = 1 → ∀ s ∈ keys_of N, s ≤ e.key) ∧
      ∀ q', q' < 2 ^ 32 → q' / 2 ^ i = q / 2 ^ i →
        ibt_search (build ops) q' = SearchResult.found e := by
  have hroot := (build_inv ops hk).root_inv
  obtain ⟨⟨p', hinvN⟩, e, h1, hcase⟩ :=
    search_from_fallback_point hroot q (Nat.div_eq_of_lt hq) i N hN
  refine ⟨e, h1, ?_, ?_, ?_, ?_⟩
  · rcases hcase with ⟨_, rest, hs⟩ | ⟨_, rest, hs⟩ <;> simp [hs]
  · intro hb
    rcases hcase with ⟨_, rest, hs⟩ | ⟨hb1, _⟩
    · exact hinvN.head_le hs
    · omega
  · intro hb
    rcases hcase with ⟨hb0, _⟩ | ⟨_, rest, hs⟩
    · omega
    · exact hinvN.le_last hs
  · intro q' hq' hagree
    have hN' := (fallback_point_congr 32 _ q i N hN).2 q' hagree
    have hbit : bitAt q' i = bitAt q i := by
      rw [bitAt_eq, bitAt_eq, hagree]
    obtain ⟨_, e', h1', hcase'⟩ :=
      search_from_fallback_point hroot q' (Nat.div_eq_of_lt hq') i N hN'
    have hee : e' = e := by
      rcases hcase with ⟨hb, rest, hs⟩ | ⟨hb, rest, hs⟩ <;>
        rcases hcase' with ⟨hb', rest', hs'⟩ | ⟨hb', rest', hs'⟩
      · rw [hs] at hs'
        exact (List.cons.inj hs').1.symm
      · omega
      · omega
      · rw [hs] at hs'
        have := List.append_inj_right' hs' rfl
        exact (List.cons.inj this).1.symm
    rw [ibt_search, BITSPERWORD, h1', hee]

theorem fallback_direction_witness :
    keys32 [(10, 1), (12, 2)] ∧ 4000000000 < 2 ^ 32 ∧
    fallback_point 32 (build [(10, 1), (12, 2)]).root 4000000000 =
      some (31, (build [(10, 1), (12, 2)]).root) ∧
    ∃ e, ibt_search (build [(10, 1), (12, 2)]) 4000000000 = SearchResult.found e ∧
      e ∈ show_tree (build [(10, 1), (12, 2)]).root ∧
      (bitAt 4000000000 31 = 0 → ∀ s ∈ keys_of (build [(10, 1), (12, 2)]).root, e.key ≤ s) ∧
      (bitAt 4000000000 31 = 1 → ∀ s ∈ keys_of (build [(10, 1), (12, 2)]).root, s ≤ e.key) ∧
      ∀ q', q' < 2 ^ 32 → q' / 2 ^ 31 = 4000000000 / 2 ^ 31 →
        ibt_search (build [(10, 1), (12, 2)]) q' = SearchResult.found e :=
  ⟨by decide, by decide, by decide,
    fallback_direction [(10, 1), (12, 2)] (by decide) 4000000000 (by decide) 31
      (build [(10, 1), (12, 2)]).root (by decide)⟩

/-! ## Two keys -/

theorem split_leaf_zero (i : Nat) (e : Entry) (h : Nat) (hb : bitAt e.key i = 0) :
    split_leaf i e h = Node.mk (new_leaf e (h + 1)) none Node.null h := by
  simp [split_leaf, push_down, hb]

theorem split_leaf_one (i : Nat) (e : Entry) (h : Nat) (hb : bitAt e.key i = 1) :
    split_leaf i e h = Node.mk Node.null none (new_leaf e (h + 1)) h := by
  simp [split_leaf, push_down, hb]

theorem two_key_chain_last (lo hi : Entry) (h1 h2 h : Nat) :
    two_key_chain lo hi 0 (Node.mk (new_leaf lo h1) none (new_leaf hi h2) h) = true := by
  simp [two_key_chain, new_leaf]

theorem two_key_chain_left (lo hi : Entry) (c : Nat) (t : Node) (h : Nat)
    (ht : t ≠ Node.null) :
    two_key_chain lo hi (c + 1) (Node.mk t none Node.null h) = two_key_chain lo hi c t := by
  cases t with
  | null => exact absurd rfl ht
  | mk l d r hh => simp [two_key_chain]

theorem two_key_chain_right (lo hi : Entry) (c : Nat) (t : Node) (h : Nat)
    (ht : t ≠ Node.null) :
    two_key_chain lo hi (c + 1) (Node.mk Node.null none t h) = two_key_chain lo hi c t := by
  cases t with
  | null => exact absurd rfl ht
  | mk l d r hh => simp [two_key_chain]

theorem common_prefix_from_comm (n a b : Nat) :
    common_prefix_from n a b = common_prefix_from n b a := by
  induction n with
  | zero => rfl
  | succ i ih => simp only [common_prefix_from, ih, eq_comm]

theorem insert_loop_ne_null (n : Nat) (cur : Node) (k v : Nat) (h : cur ≠ Node.null) :
    (ibt_insert_loop n cur k v).node ≠ Node.null := by
  cases n with
  | zero => rw [insert_loop_zero]; exact h
  | succ i =>
      cases cur with
      | null => exact absurd rfl h
      | mk l d r hh =>
          simp only [ibt_insert_loop]
          split
          · simp
          · split <;> split <;> simp

/-- Inserting a second key below a leaf: the leaf becomes a chain with one
node for each further bit on which the two keys agree, and one more whose two
children are the leaves of the two keys, the key with bit 0 on the left. The
number of splits is the length of the chain. -/
theorem insert_loop_leaf_chain (n : Nat) : ∀ (e : Entry) (h k v : Nat), e.key ≠ k →
    e.key / 2 ^ n = k / 2 ^ n →
    common_prefix_from n e.key k < n ∧
    bitAt e.key (n - 1 - common_prefix_from n e.key k) ≠
      bitAt k (n - 1 - common_prefix_from n e.key k) ∧
    (ibt_insert_loop n (new_leaf e h) k v).splits = common_prefix_from n e.key k + 1 ∧
    two_key_chain
      (if bitAt e.key (n - 1 - common_prefix_from n e.key k) = 0 then e
        else create_entry k v)
      (if bitAt e.key (n - 1 - common_prefix_from n e.key k) = 0 then create_entry k v
        else e)
      (common_prefix_from n e.key k) (ibt_insert_loop n (new_leaf e h) k v).node = true := by
  induction n with
  | zero =>
      intro e h k v hne hp
      simp only [pow_zero, Nat.div_one] at hp
      exact absurd hp hne
  | succ i ih =>
      intro e h k v hne hp
      have he := prefix_step e.key i _ hp
      have hk := prefix_step k i _ rfl
      rw [show new_leaf e h = Node.mk Node.null (some e) Node.null h from rfl,
        insert_loop_split i e h k v hne]
      by_cases hbits : bitAt e.key i = bitAt k i
      · -- the keys agree on bit `i`: the chain grows by one node
        have hpi : e.key / 2 ^ i = k / 2 ^ i := by rw [he, hk, hbits]
        obtain ⟨c1, c2, c3, c4⟩ := ih e (h + 1) k v hne hpi
        have hc : common_prefix_from (i + 1) e.key k = 1 + common_prefix_from i e.key k := by
          simp [common_prefix_from, hbits]
        have hidx : i + 1 - 1 - (1 + common_prefix_from i e.key k) =
            i - 1 - common_prefix_from i e.key k := by omega
        have hnn := insert_loop_ne_null i (new_leaf e (h + 1)) k v (new_leaf_ne_null _ _)
        rw [hc, hidx]
        refine ⟨by omega, c2, ?_, ?_⟩
        · rcases bitAt_cases e.key i with hb | hb
          · rw [split_leaf_zero i e h hb, insert_loop_branch_zero i _ _ h k v (by rw [← hbits, hb])]
            simp [new_leaf_ne_null, c3]; omega
          · rw [split_leaf_one i e h hb, insert_loop_branch_one i _ _ h k v (by rw [← hbits, hb])]
            simp [new_leaf_ne_null, c3]; omega
        · rcases bitAt_cases e.key i with hb | hb
          · rw [split_leaf_zero i e h hb, insert_loop_branch_zero i _ _ h k v (by rw [← hbits, hb])]
            simp only [new_leaf_ne_null, if_false]
            rw [Nat.add_comm 1, two_key_chain_left _ _ _ _ _ hnn]
            exact c4
          · rw [split_leaf_one i e h hb, insert_loop_branch_one i _ _ h k v (by rw [← hbits, hb])]
            simp only [new_leaf_ne_null, if_false]
            rw [Nat.add_comm 1, two_key_chain_right _ _ _ _ _ hnn]
            exact c4
      · -- the keys differ at bit `i`: the two leaves become siblings
        have hc : common_prefix_from (i + 1) e.key k = 0 := by
          simp [common_prefix_from, hbits]
        rw [hc]
        simp only [Nat.add_sub_cancel, Nat.sub_zero]
        refine ⟨by omega, hbits, ?_, ?_⟩
        · rcases bitAt_cases e.key i with hb | hb
          · have hbk : bitAt k i = 1 := by
              rcases bitAt_cases k i with h0 | h0
              · exact absurd (hb.trans h0.symm) hbits
              · exact h0
            rw [split_leaf_zero i e h hb, insert_loop_branch_one i _ _ h k v hbk]
            simp
          · have hbk : bitAt k i = 0 := by
              rcases bitAt_cases k i with h0 | h0
              · exact h0
              · exact absurd (hb.trans h0.symm) hbits
            rw [split_leaf_one i e h hb, insert_loop_branch_zero i _ _ h k v hbk]
            simp
        · rcases bitAt_cases e.key i with hb | hb
          · have hbk : bitAt k i = 1 := by
              rcases bitAt_cases k i with h0 | h0
              · exact absurd (hb.trans h0.symm) hbits
              · exact h0
            rw [split_leaf_zero i e h hb, insert_loop_branch_one i _ _ h k v hbk]
            simp only [if_true, hb]
            exact two_key_chain_last _ _ _ _ _
          · have hbk : bitAt k i = 0 := by
              rcases bitAt_cases k i with h0 | h0
              · exact h0
              · exact absurd (hb.trans h0.symm) hbits
            rw [split_leaf_one i e h hb, insert_loop_branch_zero i _ _ h k v hbk]
            simp only [if_true, hb]
            exact two_key_chain_last _ _ _ _ _

/-- The trie built from two keys: the root and `node_count` are those of the
loop run on the root leaf of the first key. -/
theorem build_two_keys (a va b vb : Nat) :
    (build [(a, va), (b, vb)]).root =
      (ibt_insert_loop 32 (new_leaf (create_entry a va) 1) b vb).node ∧
    (build [(a, va), (b, vb)]).node_count =
      (ibt_insert_loop 32 (new_leaf (create_entry a va) 1) b vb).splits := by
  have hfirst := ibt_insert_root_null ibt_create a va rfl
  have hne : (ibt_insert ibt_create a va).root ≠ Node.null := by
    rw [hfirst]; exact new_leaf_ne_null _ _
  obtain ⟨e1, e2⟩ := ibt_insert_root_of_ne _ b vb hne
  rw [hfirst] at e1 e2
  simp only [insert_walk, BITSPERWORD] at e1 e2
  rw [build_pair, hfirst]
  refine ⟨e1, ?_⟩
  rw [e2]
  show 0 + _ = _
  omega

/-- C18, lazy path compression for two keys: for distinct 32-bit keys `a`, `b`
with common most-significant-bit prefix of length `c`, `c ≤ 31` and the keys
differ at bit `31 - c`; inserting them in either order into an empty trie
gives a chain of `c + 1` nodes without entry from the root, the first `c` with
exactly one child and the last with exactly two leaf children, the key with
bit `31 - c` equal to 0 on the left; and `ibt_node_count = c + 1`. -/
theorem two_keys_lazy_chain (a b va vb : Nat) (ha : a < 2 ^ 32) (hb : b < 2 ^ 32)
    (hab : a ≠ b) :
    common_prefix_len a b ≤ 31 ∧
    bitAt a (31 - common_prefix_len a b) ≠ bitAt b (31 - common_prefix_len a b) ∧
    ∀ ops, ops = [(a, va), (b, vb)] ∨ ops = [(b, vb), (a, va)] →
      two_key_chain
        (if bitAt a (31 - common_prefix_len a b) = 0 then create_entry a va
          else create_entry b vb)
        (if bitAt a (31 - common_prefix_len a b) = 0 then create_entry b vb
          else create_entry a va)
        (common_prefix_len a b) (build ops).root = true ∧
      ibt_node_count (build ops) = common_prefix_len a b + 1 := by
  have hpre : a / 2 ^ 32 = b / 2 ^ 32 := by
    rw [Nat.div_eq_of_lt ha, Nat.div_eq_of_lt hb]
  obtain ⟨c1, c2, c3, c4⟩ :=
    insert_loop_leaf_chain 32 (create_entry a va) 1 b vb hab hpre
  obtain ⟨d1, d2, d3, d4⟩ :=
    insert_loop_leaf_chain 32 (create_entry b vb) 1 a va (Ne.symm hab) hpre.symm
  have hcomm : common_prefix_from 32 b a = common_prefix_from 32 a b :=
    common_prefix_from_comm 32 b a
  simp only [create_entry, hcomm] at c1 c2 c3 c4 d1 d2 d3 d4
  simp only [common_prefix_len, BITSPERWORD, create_entry]
  have h31 : 32 - 1 - common_prefix_from 32 a b = 31 - common_prefix_from 32 a b := by omega
  rw [h31] at c2 c4 d2 d4
  refine ⟨by omega, c2, ?_⟩
  intro ops hops
  rcases hops with h | h <;> subst h
  · obtain ⟨r1, r2⟩ := build_two_keys a va b vb
    rw [r1, ibt_node_count, r2]
    exact ⟨c4, c3⟩
  · obtain ⟨r1, r2⟩ := build_two_keys b vb a va
    rw [r1, ibt_node_count, r2]
    refine ⟨?_, d3⟩
    rcases bitAt_cases a (31 - common_prefix_from 32 a b) with ha0 | ha0 <;>
      rcases bitAt_cases b (31 - common_prefix_from 32 a b) with hb0 | hb0
    · exact absurd (ha0.trans hb0.symm) c2
    · simpa [ha0, hb0, create_entry] using d4
    · simpa [ha0, hb0, create_entry] using d4
    · exact absurd (ha0.trans hb0.symm) c2

theorem two_keys_lazy_chain_witness :
    10 < 2 ^ 32 ∧ 12 < 2 ^ 32 ∧ 10 ≠ 12 ∧
    common_prefix_len 10 12 ≤ 31 ∧
    bitAt 10 (31 - common_prefix_len 10 12) ≠ bitAt 12 (31 - common_prefix_len 10 12) ∧
    ∀ ops, ops = [(10, 1), (12, 2)] ∨ ops = [(12, 2), (10, 1)] →
      two_key_chain
        (if bitAt 10 (31 - common_prefix_len 10 12) = 0 then create_entry 10 1
          else create_entry 12 2)
        (if bitAt 10 (31 - common_prefix_len 10 12) = 0 then create_entry 12 2
          else create_entry 10 1)
        (common_prefix_len 10 12) (build ops).root = true ∧
      ibt_node_count (build ops) = common_prefix_len 10 12 + 1 :=
  ⟨by decide, by decide, by decide,
    two_keys_lazy_chain 10 12 1 2 (by decide) (by decide) (by decide)⟩

/-! ## Insertion does not look at values -/

theorem map_values_eq_null (f : Nat → Nat) (t : Node) :
    map_values f t = Node.null ↔ t = Node.null := by
  cases t <;> simp [map_values]

theorem holds_key_map (f : Nat → Nat) (d : Option Entry) (k : Nat) :
    holds_key (d.map (map_entry f)) k = holds_key d k := by
  cases d <;> rfl

theorem push_down_map (f : Nat → Nat) (i : Nat) (l r : Node) (d : Option Entry) (h : Nat) :
    push_down i (map_values f l) (d.map (map_entry f)) (map_values f r) h =
      { left := map_values f (push_down i l d r h).left,
        right := map_values f (push_down i l d r h).right,
        splits := (push_down i l d r h).splits } := by
  cases d with
  | none => rfl
  | some e =>
      rcases bitAt_cases e.key i with hb | hb <;>
        simp [push_down, map_entry, hb, new_leaf, map_values]

/-- The loop of `ibt_insert` commutes with a change of the stored values: it
tests keys only. -/
theorem insert_loop_map (f : Nat → Nat) (n : Nat) : ∀ (cur : Node) (k v : Nat),
    ibt_insert_loop n (map_values f cur) k (f v) =
      { node := map_values f (ibt_insert_loop n cur k v).node,
        splits := (ibt_insert_loop n cur k v).splits,
        exit := (ibt_insert_loop n cur k v).exit } := by
  induction n with
  | zero => intro cur k v; simp [insert_loop_zero]
  | succ i ih =>
      intro cur k v
      cases cur with
      | null => rfl
      | mk l d r h =>
          have hmk : map_values f (Node.mk l d r h) =
              Node.mk (map_values f l) (d.map (map_entry f)) (map_values f r) h := rfl
          rw [hmk]
          by_cases hk : holds_key d k = true
          · rw [insert_loop_dup_here i _ _ _ h k (f v) (by rw [holds_key_map]; exact hk),
              insert_loop_dup_here i _ _ _ h k v hk]
            simp [map_values]
          · have hk0 : holds_key d k = false := by simpa using hk
            have hk1 : holds_key (d.map (map_entry f)) k = false := by
              rw [holds_key_map]; exact hk0
            have hpd := push_down_map f i l r d h
            rcases bitAt_cases k i with hb | hb
            · by_cases hl : (push_down i l d r h).left = Node.null
              · rw [insert_loop_left_new i _ _ _ h k (f v) hk1 hb
                    (by rw [hpd]; exact (map_values_eq_null f _).mpr hl),
                  insert_loop_left_new i _ _ _ h k v hk0 hb hl, hpd]
                simp [map_values, new_leaf, create_entry, map_entry]
              · rw [insert_loop_left_descend i _ _ _ h k (f v) hk1 hb
                    (by rw [hpd]; exact fun h0 => hl ((map_values_eq_null f _).mp h0)),
                  insert_loop_left_descend i _ _ _ h k v hk0 hb hl, hpd]
                simp [map_values, ih]
            · by_cases hr : (push_down i l d r h).right = Node.null
              · rw [insert_loop_right_new i _ _ _ h k (f v) hk1 hb
                    (by rw [hpd]; exact (map_values_eq_null f _).mpr hr),
                  insert_loop_right_new i _ _ _ h k v hk0 hb hr, hpd]
                simp [map_values, new_leaf, create_entry, map_entry]
              · rw [insert_loop_right_descend i _ _ _ h k (f v) hk1 hb
                    (by rw [hpd]; exact fun h0 => hr ((map_values_eq_null f _).mp h0)),
                  insert_loop_right_descend i _ _ _ h k v hk0 hb hr, hpd]
                simp [map_values, ih]

theorem ibt_insert_map (f : Nat → Nat) (t : Trie) (k v : Nat) :
    ibt_insert (map_trie f t) k (f v) = map_trie f (ibt_insert t k v) := by
  by_cases hnull : t.root = Node.null
  · have h2 : (map_trie f t).root = Node.null := by
      simp [map_trie, hnull, map_values]
    rw [ibt_insert_root_null t k v hnull, ibt_insert_root_null _ k (f v) h2]
    simp [map_trie, map_values, new_leaf, create_entry, map_entry]
  · unfold ibt_insert
    cases hr : t.root with
    | null => exact absurd hr hnull
    | mk l d r h =>
        have hw := insert_loop_map f 32 (Node.mk l d r h) k v
        have hroot : (map_trie f t).root =
            Node.mk (map_values f l) (d.map (map_entry f)) (map_values f r) h := by
          simp [map_trie, hr, map_values]
        rw [hroot]
        simp only [insert_walk, BITSPERWORD]
        rw [show Node.mk (map_values f l) (d.map (map_entry f)) (map_values f r) h =
          map_values f (Node.mk l d r h) from rfl, hw]
        cases (ibt_insert_loop 32 (Node.mk l d r h) k v).exit <;> simp [map_trie]

theorem insert_all_map (f : Nat → Nat) (ops : List (Nat × Nat)) : ∀ (t : Trie),
    insert_all (map_trie f t) (ops.map (fun p => (p.1, f p.2))) =
      map_trie f (insert_all t ops) := by
  induction ops with
  | nil => intro t; rfl
  | cons p rest ih =>
      intro t
      obtain ⟨k, v⟩ := p
      rw [List.map_cons, insert_all_cons, insert_all_cons, ibt_insert_map, ih]

/-- The counters of a trie built by insertions do not depend on the values. -/
theorem build_map (f : Nat → Nat) (ops : List (Nat × Nat)) :
    build (ops.map (fun p => (p.1, f p.2))) = map_trie f (build ops) := by
  have := insert_all_map f ops ibt_create
  exact this

theorem node_count_indep_values (ops : List (Nat × Nat)) :
    ibt_node_count (build ops) = ibt_node_count (build (ops.map (fun p => (p.1, 0)))) := by
  rw [build_map (fun _ => 0) ops]
  rfl

/-- Searching a key that was inserted returns its entry, with the value of its
first insertion. -/
theorem search_stored (ops : List (Nat × Nat)) (hk : keys32 ops) (k v : Nat)
    (hlook : ops.lookup k = some v) :
    ibt_search (build ops) k = SearchResult.found { key := k, v := v } := by
  have hmem : k ∈ ops.map Prod.fst := (lookup_isSome_iff ops k).mp ⟨v, hlook⟩
  have hne : ops ≠ [] := by
    intro h0; rw [h0] at hmem; simp at hmem
  obtain ⟨e, h1, h2, h3, _⟩ := build_search ops hk hne k (keys32_of_mem hk hmem)
  have hadj := h3 k ((build_keys ops hk k).mpr hmem)
  have hek : e.key = k := by
    rcases Nat.le_total k e.key with h | h
    · exact (hadj.1 (le_refl _) h).symm
    · exact (hadj.2 h (le_refl _)).symm
  have hev := (build_mem ops hk e).mp h2
  rw [hek, hlook] at hev
  rw [h1]
  cases e
  simp only [SearchResult.found.injEq, Entry.mk.injEq]
  exact ⟨hek, (Option.some.inj hev).symm⟩

/-- C12, counterexample: after inserting 10 and 12, the insertion of 11 does
not increment `ibt_node_count` by exactly one. -/
theorem insert_11_not_one_split :
    ¬ (ibt_node_count (build [(10, 1), (12, 2), (11, 3)]) =
      ibt_node_count (build [(10, 1), (12, 2)]) + 1) := by
  decide

/-- C12, amended: after inserting 10 and then 12 into an empty trie
(`ibt_node_count = 30`), the insertion of 11 triggers exactly two splits, so
`ibt_node_count` grows by two, and `ibt_search` of 10, 12 and 11 returns the
entries they were inserted with. -/
theorem insert_11_two_splits (v1 v2 v3 : Nat) :
    ibt_node_count (build [(10, v1), (12, v2)]) = 30 ∧
    ibt_node_count (build [(10, v1), (12, v2), (11, v3)]) =
      ibt_node_count (build [(10, v1), (12, v2)]) + 2 ∧
    ibt_search (build [(10, v1), (12, v2), (11, v3)]) 10 =
      SearchResult.found { key := 10, v := v1 } ∧
    ibt_search (build [(10, v1), (12, v2), (11, v3)]) 12 =
      SearchResult.found { key := 12, v := v2 } ∧
    ibt_search (build [(10, v1), (12, v2), (11, v3)]) 11 =
      SearchResult.found { key := 11, v := v3 } := by
  have hk : keys32 [(10, v1), (12, v2), (11, v3)] := by
    intro p hp
    simp only [List.mem_cons, List.mem_singleton, List.not_mem_nil, or_false] at hp
    rcases hp with h | h | h <;> subst h <;> simp
  have h2 : ibt_node_count (build [(10, v1), (12, v2)]) = 30 := by
    rw [node_count_indep_values]
    simp only [List.map_cons, List.map_nil]
    decide
  have h3 : ibt_node_count (build [(10, v1), (12, v2), (11, v3)]) = 32 := by
    rw [node_count_indep_values]
    simp only [List.map_cons, List.map_nil]
    decide
  refine ⟨h2, by rw [h2, h3], ?_, ?_, ?_⟩
  · exact search_stored _ hk 10 v1 (by simp [List.lookup_cons])
  · exact search_stored _ hk 12 v2 (by simp [List.lookup_cons])
  · exact search_stored _ hk 11 v3 (by simp [List.lookup_cons])

/-! ## The order of two insertions -/

theorem insert_loop_split_node (i : Nat) (e : Entry) (h k v : Nat) (hne : e.key ≠ k) :
    (ibt_insert_loop (i + 1) (new_leaf e h) k v).node =
      (ibt_insert_loop (i + 1) (split_leaf i e h) k v).node := by
  rw [show new_leaf e h = Node.mk Node.null (some e) Node.null h from rfl,
    insert_loop_split i e h k v hne]

theorem insert_loop_branch_zero_node (i : Nat) (l r : Node) (h k v : Nat)
    (hb : bitAt k i = 0) :
    (ibt_insert_loop (i + 1) (Node.mk l none r h) k v).node =
      Node.mk (if l = Node.null then new_leaf (create_entry k v) (h + 1)
        else (ibt_insert_loop i l k v).node) none r h := by
  rw [insert_loop_branch_zero i l r h k v hb]
  by_cases hl : l = Node.null <;> simp [hl]

theorem insert_loop_branch_one_node (i : Nat) (l r : Node) (h k v : Nat)
    (hb : bitAt k i = 1) :
    (ibt_insert_loop (i + 1) (Node.mk l none r h) k v).node =
      Node.mk l none (if r = Node.null then new_leaf (create_entry k v) (h + 1)
        else (ibt_insert_loop i r k v).node) h := by
  rw [insert_loop_branch_one i l r h k v hb]
  by_cases hr : r = Node.null <;> simp [hr]

/-- Two keys inserted below an empty slot give the same subtree in either order. -/
theorem two_leaf_comm (n : Nat) : ∀ (a b va vb h : Nat), a ≠ b → a / 2 ^ n = b / 2 ^ n →
    (ibt_insert_loop n (new_leaf (create_entry a va) h) b vb).node =
      (ibt_insert_loop n (new_leaf (create_entry b vb) h) a va).node := by
  induction n with
  | zero =>
      intro a b va vb h hab hp
      simp only [pow_zero, Nat.div_one] at hp
      exact absurd hp hab
  | succ i ih =>
      intro a b va vb h hab hp
      have ha := prefix_step a i _ hp
      have hb := prefix_step b i _ rfl
      rw [insert_loop_split_node i _ h b vb hab,
        insert_loop_split_node i _ h a va (Ne.symm hab)]
      have hka : (create_entry a va).key = a := rfl
      have hkb : (create_entry b vb).key = b := rfl
      rcases bitAt_cases a i with ba | ba <;> rcases bitAt_cases b i with bb | bb
      · rw [split_leaf_zero i _ h (by rw [hka]; exact ba),
          split_leaf_zero i _ h (by rw [hkb]; exact bb),
          insert_loop_branch_zero_node i _ _ h b vb bb,
          insert_loop_branch_zero_node i _ _ h a va ba]
        simp only [new_leaf_ne_null, if_false]
        rw [ih a b va vb (h + 1) hab (by rw [ha, hb, ba, bb])]
      · rw [split_leaf_zero i _ h (by rw [hka]; exact ba),
          split_leaf_one i _ h (by rw [hkb]; exact bb),
          insert_loop_branch_one_node i _ _ h b vb bb,
          insert_loop_branch_zero_node i _ _ h a va ba]
        simp
      · rw [split_leaf_one i _ h (by rw [hka]; exact ba),
          split_leaf_zero i _ h (by rw [hkb]; exact bb),
          insert_loop_branch_zero_node i _ _ h b vb bb,
          insert_loop_branch_one_node i _ _ h a va ba]
        simp
      · rw [split_leaf_one i _ h (by rw [hka]; exact ba),
          split_leaf_one i _ h (by rw [hkb]; exact bb),
          insert_loop_branch_one_node i _ _ h b vb bb,
          insert_loop_branch_one_node i _ _ h a va ba]
        simp only [new_leaf_ne_null, if_false]
        rw [ih a b va vb (h + 1) hab (by rw [ha, hb, ba, bb])]

/-- Two new keys inserted below a well-formed subtree give the same subtree
in either order. -/
theorem insert_loop_comm (n : Nat) : ∀ (cur : Node) (p a b va vb : Nat),
    Inv n p cur → cur ≠ Node.null → a / 2 ^ n = p → b / 2 ^ n = p → a ≠ b →
    a ∉ keys_of cur → b ∉ keys_of cur →
    (ibt_insert_loop n (ibt_insert_loop n cur a va).node b vb).node =
      (ibt_insert_loop n (ibt_insert_loop n cur b vb).node a va).node := by
  induction n with
  | zero =>
      intro cur p a b va vb hinv hne hpa hpb hab hna hnb
      cases hinv with
      | null => exact absurd rfl hne
      | leaf _ _ e h hk hh =>
          exfalso; apply hna
          simp only [pow_zero, Nat.div_one] at hk hpa
          simp [hk, hpa]
  | succ i ih =>
      have hbranch : ∀ (l r : Node) (h p a b va vb : Nat),
          Inv (i + 1) p (Node.mk l none r h) → a / 2 ^ (i + 1) = p → b / 2 ^ (i + 1) = p →
          a ≠ b → a ∉ keys_of (Node.mk l none r h) → b ∉ keys_of (Node.mk l none r h) →
          (ibt_insert_loop (i + 1)
              (ibt_insert_loop (i + 1) (Node.mk l none r h) a va).node b vb).node =
            (ibt_insert_loop (i + 1)
              (ibt_insert_loop (i + 1) (Node.mk l none r h) b vb).node a va).node := by
        intro l r h p a b va vb hinv hpa hpb hab hna hnb
        cases hinv with
        | branch _ _ _ _ _ hc hl hr hh =>
            simp only [keys_of_mk, Option.toList, List.map_nil, List.nil_append,
              List.mem_append, not_or] at hna hnb
            have ha := prefix_step a i p hpa
            have hb := prefix_step b i p hpb
            rcases bitAt_cases a i with ba | ba <;> rcases bitAt_cases b i with bb | bb
            · rw [insert_loop_branch_zero_node i l r h a va ba,
                insert_loop_branch_zero_node i l r h b vb bb,
                insert_loop_branch_zero_node i _ r h b vb bb,
                insert_loop_branch_zero_node i _ r h a va ba]
              rw [ba, Nat.add_zero] at ha
              rw [bb, Nat.add_zero] at hb
              by_cases hl0 : l = Node.null
              · simp only [hl0, if_true, new_leaf_ne_null, if_false]
                rw [two_leaf_comm i a b va vb (h + 1) hab (by rw [ha, hb])]
              · simp only [hl0, if_false, insert_loop_ne_null i l _ _ hl0]
                rw [ih l (2 * p) a b va vb hl hl0 ha hb hab hna.1 hnb.1]
            · rw [insert_loop_branch_zero_node i l r h a va ba,
                insert_loop_branch_one_node i l r h b vb bb,
                insert_loop_branch_one_node i _ r h b vb bb,
                insert_loop_branch_zero_node i l _ h a va ba]
            · rw [insert_loop_branch_one_node i l r h a va ba,
                insert_loop_branch_zero_node i l r h b vb bb,
                insert_loop_branch_zero_node i l _ h b vb bb,
                insert_loop_branch_one_node i _ r h a va ba]
            · rw [insert_loop_branch_one_node i l r h a va ba,
                insert_loop_branch_one_node i l r h b vb bb,
                insert_loop_branch_one_node i l _ h b vb bb,
                insert_loop_branch_one_node i l _ h a va ba]
              rw [ba] at ha
              rw [bb] at hb
              by_cases hr0 : r = Node.null
              · simp only [hr0, if_true, new_leaf_ne_null, if_false]
                rw [two_leaf_comm i a b va vb (h + 1) hab (by rw [ha, hb])]
              · simp only [hr0, if_false, insert_loop_ne_null i r _ _ hr0]
                rw [ih r (2 * p + 1) a b va vb hr hr0 ha hb hab hna.2 hnb.2]
      intro cur p a b va vb hinv hne hpa hpb hab hna hnb
      cases hinv with
      | null => exact absurd rfl hne
      | branch _ _ l r h hc hl hr hh =>
          exact hbranch l r h p a b va vb (Inv.branch i p l r h hc hl hr hh) hpa hpb hab
            hna hnb
      | leaf _ _ e h hk hh =>
          have hea : e.key ≠ a := by
            intro h0; apply hna; simp [h0]
          have heb : e.key ≠ b := by
            intro h0; apply hnb; simp [h0]
          have hsplit := Inv.split_leaf (Inv.leaf (i + 1) p e h hk hh)
          have hkeys := keys_of_split_leaf i e h
          have e1 := insert_loop_split_node i e h a va hea
          have e2 := insert_loop_split_node i e h b vb heb
          rw [show Node.mk Node.null (some e) Node.null h = new_leaf e h from rfl, e1, e2]
          unfold split_leaf at hsplit hkeys ⊢
          exact hbranch _ _ h p a b va vb hsplit hpa hpb hab
            (by rw [hkeys]; simpa using Ne.symm hea) (by rw [hkeys]; simpa using Ne.symm heb)

theorem trie_eq_of_fields {t u : Trie} (h1 : t.root = u.root) (h2 : t.height = u.height)
    (h3 : t.size = u.size) (h4 : t.node_count = u.node_count) : t = u := by
  cases t; cases u
  simp only [Trie.mk.injEq]
  exact ⟨h1, h2, h3, h4⟩

/-- The root after inserting two keys in a row, in terms of the loop. -/
theorem ibt_insert_twice_root (t : Trie) (a b va vb : Nat) :
    (ibt_insert (ibt_insert t a va) b vb).root =
      if t.root = Node.null then
        (ibt_insert_loop 32 (new_leaf (create_entry a va) 1) b vb).node
      else
        (ibt_insert_loop 32 (ibt_insert_loop 32 t.root a va).node b vb).node := by
  by_cases hnull : t.root = Node.null
  · have h1 := ibt_insert_root_null t a va hnull
    have hne : (ibt_insert t a va).root ≠ Node.null := by
      rw [h1]; exact new_leaf_ne_null _ _
    rw [(ibt_insert_root_of_ne _ b vb hne).1, h1]
    simp [hnull, insert_walk, BITSPERWORD]
  · have h1 := (ibt_insert_root_of_ne t a va hnull).1
    have hne : (ibt_insert t a va).root ≠ Node.null := by
      rw [h1]; exact insert_loop_ne_null _ _ _ _ hnull
    rw [(ibt_insert_root_of_ne _ b vb hne).1, h1]
    simp [hnull, insert_walk, BITSPERWORD]

/-- Two new distinct keys inserted into a well-formed trie give the same trie
in either order. -/
theorem ibt_insert_comm (t : Trie) (hinv : TrieInv t) (hc : TrieCounters t)
    (a b va vb : Nat) (ha : a < 2 ^ 32) (hb : b < 2 ^ 32) (hab : a ≠ b)
    (hna : a ∉ keys_of t.root) (hnb : b ∉ keys_of t.root) :
    ibt_insert (ibt_insert t a va) b vb = ibt_insert (ibt_insert t b vb) a va := by
  -- the invariants and the size along both orders
  obtain ⟨ia, _, sa⟩ := ibt_insert_fresh t a va hinv ha hna
  obtain ⟨ib, _, sb⟩ := ibt_insert_fresh t b vb hinv hb hnb
  have ca := ibt_insert_counters t a va hinv hc ha
  have cb := ibt_insert_counters t b vb hinv hc hb
  have hnb' : b ∉ keys_of (ibt_insert t a va).root := by
    rw [mem_keys_of_insert t a va hinv ha]
    exact fun h => h.elim hnb (fun h0 => hab h0.symm)
  have hna' : a ∉ keys_of (ibt_insert t b vb).root := by
    rw [mem_keys_of_insert t b vb hinv hb]
    exact fun h => h.elim hna (fun h0 => hab h0)
  obtain ⟨_, _, sab⟩ := ibt_insert_fresh _ b vb ia hb hnb'
  obtain ⟨_, _, sba⟩ := ibt_insert_fresh _ a va ib ha hna'
  have cab := ibt_insert_counters _ b vb ia ca hb
  have cba := ibt_insert_counters _ a va ib cb ha
  -- the tree
  have hroot : (ibt_insert (ibt_insert t a va) b vb).root =
      (ibt_insert (ibt_insert t b vb) a va).root := by
    rw [ibt_insert_twice_root, ibt_insert_twice_root]
    by_cases hnull : t.root = Node.null
    · simp only [hnull, if_true]
      exact two_leaf_comm 32 a b va vb 1 hab
        (by rw [Nat.div_eq_of_lt ha, Nat.div_eq_of_lt hb])
    · simp only [hnull, if_false]
      exact insert_loop_comm 32 t.root 0 a b va vb hinv.root_inv hnull
        (Nat.div_eq_of_lt ha) (Nat.div_eq_of_lt hb) hab hna hnb
  apply trie_eq_of_fields hroot
  · rw [cab.height_eq, cba.height_eq, hroot]
  · rw [sab, sba, sa, sb]
  · rw [cab.node_count_eq, cba.node_count_eq, hroot]

/-- C20, insertion order of new keys: for a trie built by insertions and two
distinct 32-bit keys that it does not store, inserting `(a, va)` then
`(b, vb)` gives the same trie as inserting `(b, vb)` then `(a, va)`: the same
tree with the same entries and height fields, and the same `size`,
`node_count` and `height`. -/
theorem insert_order_irrelevant (ops : List (Nat × Nat)) (hk : keys32 ops)
    (a b va vb : Nat) (ha : a < 2 ^ 32) (hb : b < 2 ^ 32) (hab : a ≠ b)
    (hna : a ∉ keys_of (build ops).root) (hnb : b ∉ keys_of (build ops).root) :
    ibt_insert (ibt_insert (build ops) a va) b vb =
      ibt_insert (ibt_insert (build ops) b vb) a va :=
  ibt_insert_comm (build ops) (build_inv ops hk) (build_counters ops hk) a b va vb ha hb hab
    hna hnb

theorem insert_order_irrelevant_witness :
    keys32 [(10, 1), (12, 2)] ∧ 11 < 2 ^ 32 ∧ 4000000000 < 2 ^ 32 ∧ 11 ≠ 4000000000 ∧
    11 ∉ keys_of (build [(10, 1), (12, 2)]).root ∧
    4000000000 ∉ keys_of (build [(10, 1), (12, 2)]).root ∧
    ibt_insert (ibt_insert (build [(10, 1), (12, 2)]) 11 3) 4000000000 4 =
      ibt_insert (ibt_insert (build [(10, 1), (12, 2)]) 4000000000 4) 11 3 :=
  ⟨by decide, by decide, by decide, by decide, by decide, by decide,
    insert_order_irrelevant [(10, 1), (12, 2)] (by decide) 11 4000000000 3 4 (by decide)
      (by decide) (by decide) (by decide) (by decide)⟩

end IpTrie
